import Mathlib

/-!
# Verification of the fallback-routing / tool-call-recovery core

Shallow embedding of the TypeScript sources of the terminal coding agent
(`src/core/llm/adapters/groq.ts`, `src/core/llm/router.ts`,
`src/core/tools.ts`, `src/utils/path.ts`, `src/utils/safety.ts`).

Modelling conventions:
* JS strings are modelled as `List Char` (sequences of Unicode code points);
  the repair scanner and heuristic only index ASCII delimiters, so code-point
  positions coincide with UTF-16 positions wherever a position matters.
  Where UTF-16 units do matter (`String.prototype.slice` in `readFile`),
  a dedicated unit-counting model `jsSliceUnits` is used.
* `while` loops with a monotонically increasing index are written either as
  structural recursion over the remaining suffix or with an explicit fuel
  argument that the top-level entry point instantiates above the loop's
  iteration bound.
* Opaque platform effects (filesystem, child process, interactive prompt)
  are supplied by oracle functions in an environment record; exceptions are
  the `Except` monad.
-/

namespace CodeAgent

/-! ## JS character classes -/

/-- JS `/\s/` (ECMAScript WhiteSpace ∪ LineTerminator), as used by the
scanner's whitespace skipping and by `String.prototype.trim`. -/
def isJsWs (c : Char) : Bool :=
  c = ' ' ∨ c = '\t' ∨ c = '\n' ∨ c = '\x0b' ∨ c = '\x0c' ∨ c = '\r' ∨
  c = ' ' ∨ c = ' ' ∨ (' ' ≤ c ∧ c ≤ ' ') ∨
  c = ' ' ∨ c = ' ' ∨ c = ' ' ∨ c = ' ' ∨
  c = '　' ∨ c = '﻿'

/-- First identifier character accepted by the repair scanner:
`c === '_' || ('a'..'z') || ('A'..'Z')` (groq.ts, `repairMalformedToolCalls`). -/
def isIdentStart (c : Char) : Bool :=
  c = '_' ∨ ('a' ≤ c ∧ c ≤ 'z') ∨ ('A' ≤ c ∧ c ≤ 'Z')

/-- Identifier continuation characters accepted by the repair scanner. -/
def isIdentCont (c : Char) : Bool :=
  isIdentStart c ∨ ('0' ≤ c ∧ c ≤ '9')

/-- JS `/\w/`. -/
def isWordChar (c : Char) : Bool :=
  ('a' ≤ c ∧ c ≤ 'z') ∨ ('A' ≤ c ∧ c ≤ 'Z') ∨ ('0' ≤ c ∧ c ≤ '9') ∨ c = '_'

/-- JS `[\w.-]` (the filename character class of the heuristic regexes). -/
def isFnameChar (c : Char) : Bool :=
  isWordChar c ∨ c = '.' ∨ c = '-'

/-! ## List utilities mirroring scanning loops -/

/-- Length of the longest prefix of `cs` all of whose characters satisfy `p`
(the `while (p(text[i])) i++` idiom). -/
def runLen (p : Char → Bool) : List Char → Nat
  | [] => 0
  | c :: rest => if p c then runLen p rest + 1 else 0

/-- `pat` begins `cs`. -/
def leadsWith : List Char → List Char → Bool
  | [], _ => true
  | _ :: _, [] => false
  | p :: ps, c :: cs => p = c ∧ leadsWith ps cs

/-- `text.indexOf(pat, i)` for a nonempty pattern, scanning the suffix `cs`
that starts at absolute position `pos`; returns the absolute position of the
first occurrence. -/
def findFrom (pat : List Char) : List Char → Nat → Option Nat
  | [], _ => none
  | c :: rest, pos =>
    if leadsWith pat (c :: rest) then some pos else findFrom pat rest (pos + 1)

/-- `text.includes(pat)` / "`pat` occurs somewhere in `text`". -/
def containsSub (text pat : List Char) : Bool :=
  (findFrom pat text 0).isSome

/-- Absolute-index form of `indexOf`: first occurrence of `pat` in `text` at
position `≥ i`. -/
def indexOfFrom (text pat : List Char) (i : Nat) : Option Nat :=
  findFrom pat (text.drop i) i

/-- `text.slice(a, b)` (character positions). -/
def sliceList (text : List Char) (a b : Nat) : List Char :=
  (text.take b).drop a

/-- `String.prototype.trim`. -/
def jsTrim (cs : List Char) : List Char :=
  ((cs.dropWhile isJsWs).reverse.dropWhile isJsWs).reverse

/-! ## JSON values and `JSON.parse`

`JSON.parse` is the JS platform parser used by `parseArgs`.  Numbers are kept
as their source literal (numeric value semantics of JS floats are never
relevant to the claims under verification, which compare structurally equal
parses of the same text). -/

inductive Json where
  | null : Json
  | bool (b : Bool) : Json
  | num (lit : String) : Json
  | str (s : String) : Json
  | arr (elems : List Json) : Json
  | obj (fields : List (String × Json)) : Json
deriving Repr, Inhabited

/-- JSON insignificant whitespace (space, tab, line feed, carriage return). -/
def isJsonWs (c : Char) : Bool :=
  c = ' ' ∨ c = '\t' ∨ c = '\n' ∨ c = '\r'

def isDigit (c : Char) : Bool := '0' ≤ c ∧ c ≤ '9'

def isHexDigit (c : Char) : Bool :=
  isDigit c ∨ ('a' ≤ c ∧ c ≤ 'f') ∨ ('A' ≤ c ∧ c ≤ 'F')

def hexVal (c : Char) : Nat :=
  if isDigit c then c.toNat - '0'.toNat
  else if 'a' ≤ c ∧ c ≤ 'f' then c.toNat - 'a'.toNat + 10
  else c.toNat - 'A'.toNat + 10

/-- Single-character escapes of JSON strings (`\u` is handled separately). -/
def jsonEscChar (e : Char) : Option Char :=
  if e = '"' then some '"'
  else if e = '\\' then some '\\'
  else if e = '/' then some '/'
  else if e = 'b' then some '\x08'
  else if e = 'f' then some '\x0c'
  else if e = 'n' then some '\n'
  else if e = 'r' then some '\r'
  else if e = 't' then some '\t'
  else none

/-- Parse a JSON string body after the opening quote; returns the decoded
characters and the rest after the closing quote. -/
def parseJsonString : List Char → Option (List Char × List Char)
  | [] => none
  | '"' :: rest => some ([], rest)
  | '\\' :: 'u' :: h1 :: h2 :: h3 :: h4 :: rest =>
    if isHexDigit h1 ∧ isHexDigit h2 ∧ isHexDigit h3 ∧ isHexDigit h4 then
      match parseJsonString rest with
      | some (s, rem) =>
        some (Char.ofNat
          (((hexVal h1 * 16 + hexVal h2) * 16 + hexVal h3) * 16 + hexVal h4) :: s, rem)
      | none => none
    else none
  | '\\' :: e :: rest =>
    match jsonEscChar e with
    | some d =>
      match parseJsonString rest with
      | some (s, rem) => some (d :: s, rem)
      | none => none
    | none => none
  | c :: rest =>
    if c.toNat < 0x20 then none
    else
      match parseJsonString rest with
      | some (s, rem) => some (c :: s, rem)
      | none => none

/-- Parse a JSON number literal (after an optional leading `-`, which the
caller has already validated is followed by a digit); returns the literal
characters and the rest. -/
def parseJsonNumber (cs : List Char) : Option (List Char × List Char) :=
  let (neg, cs₁) := match cs with
    | '-' :: rest => ([('-' : Char)], rest)
    | _ => ([], cs)
  match cs₁ with
  | [] => none
  | d :: rest =>
    if ¬ isDigit d then none
    else
      let (intPart, rest₁) :=
        if d = '0' then ([d], rest)
        else (d :: rest.takeWhile isDigit, rest.dropWhile isDigit)
      let (fracPart, rest₂) :=
        match rest₁ with
        | '.' :: f :: r =>
          if isDigit f then
            (('.' : Char) :: f :: r.takeWhile isDigit, r.dropWhile isDigit)
          else ([], rest₁)
        | _ => ([], rest₁)
      -- a bare '.' with no digit after it makes the whole literal invalid
      let fracOk : Bool :=
        match rest₁ with
        | '.' :: f :: _ => isDigit f
        | ['.'] => false
        | _ => true
      let (expPart, rest₃, expOk) :=
        match rest₂ with
        | e :: r =>
          if e = 'e' ∨ e = 'E' then
            let (sign, r₁) := match r with
              | s :: r' => if s = '+' ∨ s = '-' then ([s], r') else ([], r)
              | [] => ([], r)
            match r₁ with
            | d₂ :: _ =>
              if isDigit d₂ then
                (e :: sign ++ r₁.takeWhile isDigit, r₁.dropWhile isDigit, true)
              else ([], rest₂, false)
            | [] => ([], rest₂, false)
          else ([], rest₂, true)
        | [] => ([], rest₂, true)
      if fracOk ∧ expOk then some (neg ++ intPart ++ fracPart ++ expPart, rest₃)
      else none

mutual

/-- Recursive-descent `JSON.parse` value parser (fuel-indexed; the fuel is
instantiated above the input length, which bounds the recursion depth). -/
def parseJsonValue : Nat → List Char → Option (Json × List Char)
  | 0, _ => none
  | _ + 1, cs =>
    match cs.dropWhile isJsonWs with
    | [] => none
    | c :: rest =>
      if c = 'n' then
        if leadsWith ['u','l','l'] rest then some (.null, rest.drop 3) else none
      else if c = 't' then
        if leadsWith ['r','u','e'] rest then some (.bool true, rest.drop 3) else none
      else if c = 'f' then
        if leadsWith ['a','l','s','e'] rest then some (.bool false, rest.drop 4) else none
      else if c = '"' then
        match parseJsonString rest with
        | some (s, rem) => some (.str ⟨s⟩, rem)
        | none => none
      else if c = '-' ∨ isDigit c then
        match parseJsonNumber (c :: rest) with
        | some (lit, rem) => some (.num ⟨lit⟩, rem)
        | none => none
      else none
  -- arrays and objects are handled one level up so that the mutual
  -- recursion below stays structural in the fuel

/-- Array/object-aware entry: dispatches on `[`/`{` and otherwise falls back
to the scalar cases of `parseJsonValue`. -/
def parseJsonAny : Nat → List Char → Option (Json × List Char)
  | 0, _ => none
  | fuel + 1, cs =>
    match cs.dropWhile isJsonWs with
    | [] => none
    | c :: rest =>
      if c = '[' then
        match rest.dropWhile isJsonWs with
        | ']' :: rem => some (.arr [], rem)
        | _ =>
          match parseJsonArrayItems fuel rest with
          | some (elems, rem) => some (.arr elems, rem)
          | none => none
      else if c = '{' then
        match rest.dropWhile isJsonWs with
        | '}' :: rem => some (.obj [], rem)
        | _ =>
          match parseJsonObjectItems fuel rest with
          | some (fields, rem) => some (.obj fields, rem)
          | none => none
      else parseJsonValue (fuel + 1) cs

/-- Comma-separated array elements up to the closing `]`. -/
def parseJsonArrayItems : Nat → List Char → Option (List Json × List Char)
  | 0, _ => none
  | fuel + 1, cs =>
    match parseJsonAny fuel cs with
    | some (v, rem) =>
      match rem.dropWhile isJsonWs with
      | ',' :: rem₂ =>
        match parseJsonArrayItems fuel rem₂ with
        | some (vs, rem₃) => some (v :: vs, rem₃)
        | none => none
      | ']' :: rem₂ => some ([v], rem₂)
      | _ => none
    | none => none

/-- Comma-separated `"key": value` members up to the closing `}`. -/
def parseJsonObjectItems : Nat → List Char → Option (List (String × Json) × List Char)
  | 0, _ => none
  | fuel + 1, cs =>
    match cs.dropWhile isJsonWs with
    | '"' :: rest =>
      match parseJsonString rest with
      | some (key, rem) =>
        match rem.dropWhile isJsonWs with
        | ':' :: rem₂ =>
          match parseJsonAny fuel rem₂ with
          | some (v, rem₃) =>
            match rem₃.dropWhile isJsonWs with
            | ',' :: rem₄ =>
              match parseJsonObjectItems fuel rem₄ with
              | some (fields, rem₅) => some ((⟨key⟩, v) :: fields, rem₅)
              | none => none
            | '}' :: rem₄ => some ([(⟨key⟩, v)], rem₄)
            | _ => none
          | none => none
        | _ => none
      | none => none
    | _ => none

end

/-- `JSON.parse` on a whole text: one value, then only whitespace may remain. -/
def jsonParse (cs : List Char) : Option Json :=
  match parseJsonAny (cs.length + 1) cs with
  | some (v, rem) => if rem.dropWhile isJsonWs = [] then some v else none
  | none => none

/-- `parseArgs` (groq.ts): `JSON.parse`, keep the result when it is a non-null
object (`typeof o === 'object' && o !== null`, which admits arrays), otherwise
substitute the empty mapping. -/
def parseArgs (argsStr : List Char) : Json :=
  match jsonParse argsStr with
  | some (.obj fields) => .obj fields
  | some (.arr elems) => .arr elems
  | _ => .obj []

/-! ## The repair scanner (`repairMalformedToolCalls`, groq.ts)

The source is a single `while` loop over a mutable index with `break` and
`continue`.  It is embedded as a per-iteration step function `scanStep`
(one traversal of the loop body from a given entry index) driven by a
fuel-indexed loop `scanLoop`; the entry point supplies fuel above the
iteration bound (every non-terminal iteration advances the index by at
least one, so `text.length + 1` iterations always suffice). -/

/-- The marker token `'<function='`. -/
def markerToken : List Char := "<function=".toList

/-- A recovered tool call (`ToolCall` of llm/types.ts). -/
structure RepairCall where
  id : String
  name : String
  args : Json
deriving Repr, Inhabited

/-- `while (i < text.length && /\s/.test(text[i])) i++`. -/
def skipWs (text : List Char) (i : Nat) : Nat :=
  i + runLen isJsWs (text.drop i)

/-- The brace-depth scan: starting at absolute position `j` (with
`suffix = text.drop j`), count `{` as +1 and `}` as −1 and stop at the
position where the depth first returns to zero; `none` when the scan runs
off the end of the text. -/
def braceGo : List Char → Nat → Int → Option Nat
  | [], _, _ => none
  | c :: rest, j, depth =>
    if c = '{' then braceGo rest (j + 1) (depth + 1)
    else if c = '}' then
      if depth - 1 = 0 then some j else braceGo rest (j + 1) (depth - 1)
    else braceGo rest (j + 1) depth

/-- Outcome of one iteration of the scanner loop. -/
inductive StepResult where
  | stop : StepResult
  | skip (next : Nat) : StepResult
  | found (name : List Char) (args : Json) (span : Nat × Nat) (next : Nat) : StepResult
deriving Repr

/-- One iteration of the `while` loop of `repairMalformedToolCalls`,
entered with loop index `i₀`:
find the marker, read the identifier, skip whitespace and an optional `(`,
require `{`, brace-match, then optionally consume `)` and `>`. -/
def scanStep (text : List Char) (i₀ : Nat) : StepResult :=
  match indexOfFrom text markerToken i₀ with
  | none => .stop
  | some idx =>
    let i := idx + markerToken.length
    match text.get? i with
    | none => .stop
    | some first =>
      if ¬ isIdentStart first then .stop
      else
        let nameEnd := i + 1 + runLen isIdentCont (text.drop (i + 1))
        let name := sliceList text i nameEnd
        let i₁ := skipWs text nameEnd
        match text.get? i₁ with
        | none => .skip i₁
        | some c₁ =>
          let i₂ := if c₁ = '(' then skipWs text (i₁ + 1) else i₁
          if text.get? i₂ = some '{' then
            match braceGo (text.drop i₂) i₂ 0 with
            | none => .skip i₂
            | some j =>
              let jsonStr := sliceList text i₂ (j + 1)
              let i₃ := skipWs text (j + 1)
              let i₄ := if text.get? i₃ = some ')' then skipWs text (i₃ + 1) else i₃
              let i₅ := if text.get? i₄ = some '>' then i₄ + 1 else i₄
              .found name (parseArgs jsonStr) (idx, i₅) i₅
          else .skip i₂

/-- The scanner loop: accumulates calls (with their synthetic positional
identifiers `groq-repair-<n>`) and matched spans. -/
def scanLoop (text : List Char) :
    Nat → Nat → List RepairCall → List (Nat × Nat) →
    List RepairCall × List (Nat × Nat)
  | 0, _, calls, spans => (calls, spans)
  | fuel + 1, i, calls, spans =>
    match scanStep text i with
    | .stop => (calls, spans)
    | .skip i' => scanLoop text fuel i' calls spans
    | .found name args span i' =>
      scanLoop text fuel i'
        (calls ++ [⟨"groq-repair-" ++ toString calls.length, ⟨name⟩, args⟩])
        (spans ++ [span])

/-- Rebuild the response text with every matched span replaced by a single
space (the `for (const { start, end } of spans)` loop). -/
def buildStripped (text : List Char) (spans : List (Nat × Nat)) : List Char :=
  let fin := spans.foldl
    (fun (acc : List Char × Nat) (sp : Nat × Nat) =>
      (acc.1 ++ (if sp.1 > acc.2 then sliceList text acc.2 sp.1 else []) ++ [' '], sp.2))
    ([], 0)
  fin.1 ++ (if fin.2 < text.length then text.drop fin.2 else [])

/-- `repairMalformedToolCalls` (groq.ts): recovered calls plus the stripped
text; the text is returned untouched when no span matched, and trimmed
otherwise. -/
def repairMalformedToolCalls (text : List Char) : List RepairCall × List Char :=
  let scanned := scanLoop text (text.length + 1) 0 [] []
  if scanned.2 = [] then (scanned.1, text)
  else (scanned.1, jsTrim (buildStripped text scanned.2))

/-! ## Heuristic file-write inference (`inferEditFileFromResponse`, groq.ts)

The source uses four JS regex literals.  Each is embedded as a dedicated
matcher implementing that regex's leftmost-match / greedy-with-backtracking
semantics; greedy runs whose follow set is disjoint from the run's character
class need no backtracking and are taken maximal. -/

/-- Case-insensitive `leadsWith` against a lowercase keyword (the `/i` flag). -/
def ciLeadsWith : List Char → List Char → Bool
  | [], _ => true
  | _ :: _, [] => false
  | p :: ps, c :: cs => c.toLower = p ∧ ciLeadsWith ps cs

/-- One backtracking step of `([\w.-]+\.\w+)` anchored at `cs`: the first
part takes `x` characters, then a literal `.`, then a maximal nonempty `\w+`
run. -/
def fileGroupAt (cs : List Char) (x : Nat) : Option (List Char) :=
  let y := runLen isWordChar (cs.drop (x + 1))
  if cs.get? x = some '.' ∧ 1 ≤ y then some (cs.take (x + 1 + y)) else none

/-- Greedy descent over the length of the `[\w.-]+` part. -/
def fileGroupGo (cs : List Char) : Nat → Option (List Char)
  | 0 => none
  | x + 1 =>
    match fileGroupAt cs (x + 1) with
    | some g => some g
    | none => fileGroupGo cs x

/-- The capture of `([\w.-]+\.\w+)` anchored at `cs` (JS greedy semantics:
longest feasible first part wins, then a maximal extension run). -/
def fileGroup (cs : List Char) : Option (List Char) :=
  fileGroupGo cs (runLen isFnameChar cs)

/-- `(?:kw₁|kw₂|…)\s+([\w.-]+\.\w+)` anchored at `cs`: the keywords have
pairwise distinct initial letters, so at most one alternative applies; the
`\s+` run is maximal because `[\w.-]` contains no whitespace. -/
def kwGroupAt (kws : List (List Char)) (cs : List Char) : Option (List Char) :=
  match kws.find? (fun kw => ciLeadsWith kw cs) with
  | some kw =>
    let w := runLen isJsWs (cs.drop kw.length)
    if 1 ≤ w then fileGroup (cs.drop (kw.length + w)) else none
  | none => none

/-- Leftmost match of `(?:kw…)\s+([\w.-]+\.\w+)` over the whole string
(`String.prototype.match`, returning the capture group). -/
def scanKwGroup (kws : List (List Char)) : List Char → Option (List Char)
  | [] => none
  | c :: rest =>
    match kwGroupAt kws (c :: rest) with
    | some g => some g
    | none => scanKwGroup kws rest

/-- `/(?:named|called)\s+([\w.-]+\.\w+)/i` (`namedMatch`). -/
def namedFileMatch (s : List Char) : Option (List Char) :=
  scanKwGroup ["named".toList, "called".toList] s

/-- `/(?:create|make|write)\s+([\w.-]+\.\w+)/i` (`createMatch`). -/
def createFileMatch (s : List Char) : Option (List Char) :=
  scanKwGroup ["create".toList, "make".toList, "write".toList] s

/-- JS `.` (any char except a LineTerminator). -/
def isDotChar (c : Char) : Bool :=
  ¬ (c = '\n' ∨ c = '\r' ∨ c = ' ' ∨ c = ' ')

/-- `\w+\.\w+` anchored at `cs`: `.` is not a word character, so only the
maximal first run can be followed by the literal dot. -/
def wordDotWord (cs : List Char) : Bool :=
  let r := runLen isWordChar cs
  1 ≤ r ∧ cs.get? r = some '.' ∧ 1 ≤ runLen isWordChar (cs.drop (r + 1))

/-- `\.?\w+\.\w+` anchored at `cs`. -/
def dotFname (cs : List Char) : Bool :=
  wordDotWord cs ||
    (match cs with
     | '.' :: rest => wordDotWord rest
     | _ => false)

/-- `(?:a\s+)?` followed by continuation `k` (both alternatives of the
optional group; the follow set of `a\s+` starts with a non-whitespace
character, so the inner `\s+` run is maximal). -/
def optionalA (cs : List Char) (k : List Char → Bool) : Bool :=
  k cs ||
    (match cs with
     | a :: rest =>
       (a.toLower == 'a') &&
         (let w := runLen isJsWs rest
          decide (1 ≤ w) && k (rest.drop w))
     | [] => false)

/-- `(?:file|\.?\w+\.\w+)` anchored at `cs`. -/
def fileOrFname (cs : List Char) : Bool :=
  ciLeadsWith "file".toList cs ∨ dotFname cs

/-- Branch `(?:make|create|write)\s+(?:a\s+)?(?:file|\.?\w+\.\w+)` of
`CREATE_FILE_INTENT`, anchored at `cs`. -/
def intentBranch1 (cs : List Char) : Bool :=
  match ["make".toList, "create".toList, "write".toList].find?
      (fun kw => ciLeadsWith kw cs) with
  | some kw =>
    let rest := cs.drop kw.length
    let w := runLen isJsWs rest
    1 ≤ w ∧ optionalA (rest.drop w) fileOrFname
  | none => false

/-- A segment of the form `\s+.*\s+` (both whitespace runs nonempty; the
middle may contain any non-LineTerminator characters). -/
def wsDotsWs (seg : List Char) : Bool :=
  (List.range (seg.length + 1)).any (fun a =>
    (List.range (seg.length + 1)).any (fun b =>
      1 ≤ a ∧ a ≤ b ∧ b < seg.length ∧
      (seg.take a).all isJsWs ∧
      (sliceList seg a b).all isDotChar ∧
      (seg.drop b).all isJsWs))

/-- `\s+(?:a\s+)?file` anchored at `cs`. -/
def wsAFile (cs : List Char) : Bool :=
  let w := runLen isJsWs cs
  1 ≤ w ∧ optionalA (cs.drop w) (fun cs' => ciLeadsWith "file".toList cs')

/-- Branch `kw₁\s+.*\s+kw₂\s+(?:a\s+)?file` of `CREATE_FILE_INTENT`
(`write … to … file` and `put … in … file`), anchored at `cs`. -/
def intentMiddle (kw₁ kw₂ : List Char) (cs : List Char) : Bool :=
  ciLeadsWith kw₁ cs ∧
    (let rgn := cs.drop kw₁.length
     (List.range (rgn.length + 1)).any (fun j =>
       ciLeadsWith kw₂ (rgn.drop j) ∧ wsDotsWs (rgn.take j) ∧
       wsAFile (rgn.drop (j + kw₂.length))))

/-- Branch `file\s+(?:named\s+)?[\w.-]+\.\w+` of `CREATE_FILE_INTENT`,
anchored at `cs`. -/
def intentBranch4 (cs : List Char) : Bool :=
  ciLeadsWith "file".toList cs ∧
    (let rgn := cs.drop 4
     let w := runLen isJsWs rgn
     1 ≤ w ∧
      (let rgn₂ := rgn.drop w
       (fileGroup rgn₂).isSome ∨
       (ciLeadsWith "named".toList rgn₂ ∧
        (let w₂ := runLen isJsWs (rgn₂.drop 5)
         1 ≤ w₂ ∧ (fileGroup (rgn₂.drop (5 + w₂))).isSome))))

/-- `CREATE_FILE_INTENT.test(...)`: some branch matches at some position. -/
def createFileIntentTest (user : List Char) : Bool :=
  (List.range (user.length + 1)).any (fun p =>
    let cs := user.drop p
    intentBranch1 cs ∨ intentMiddle "write".toList "to".toList cs ∨
    intentMiddle "put".toList "in".toList cs ∨ intentBranch4 cs)

/-- `LANGUAGE_DEFAULT_PATH` (language hint → default filename). -/
def languageDefaultPath (lang : List Char) : Option (List Char) :=
  if lang = "c".toList then some "hello.c".toList
  else if lang = "cpp".toList then some "main.cpp".toList
  else if lang = "py".toList then some "main.py".toList
  else if lang = "python".toList then some "main.py".toList
  else if lang = "js".toList then some "index.js".toList
  else if lang = "javascript".toList then some "index.js".toList
  else if lang = "ts".toList then some "index.ts".toList
  else if lang = "typescript".toList then some "index.ts".toList
  else none

/-- A fenced code block found by `extractFirstCodeBlock`. -/
structure CodeBlock where
  content : List Char
  lang : List Char
  start : Nat
  stop : Nat
deriving Repr

/-- First position where ` ```(\w*)\n ` matches (the `\w*` run is maximal:
a shorter run would have to be followed by `\n`, but is followed by a word
character).  Returns the match position and the language-tag run length. -/
def findFence : List Char → Nat → Option (Nat × Nat)
  | [], _ => none
  | c :: rest, pos =>
    if leadsWith "```".toList (c :: rest) then
      let run := runLen isWordChar ((c :: rest).drop 3)
      if (c :: rest).get? (3 + run) = some '\n' then some (pos, run)
      else findFence rest (pos + 1)
    else findFence rest (pos + 1)

/-- `extractFirstCodeBlock` (groq.ts): opening fence with optional language
tag, body up to the next ` ``` `. -/
def extractFirstCodeBlock (text : List Char) : Option CodeBlock :=
  match findFence text 0 with
  | none => none
  | some (p, run) =>
    let lang := (sliceList text (p + 3) (p + 3 + run)).map Char.toLower
    let afterOpen := p + 3 + run + 1
    match indexOfFrom text "```".toList afterOpen with
    | none => none
    | some closeIdx => some ⟨sliceList text afterOpen closeIdx, lang, p, closeIdx + 3⟩

/-- The fixed confirmation sentence appended by the heuristic. -/
def confirmationSentence : List Char := "I've created the file.".toList

/-- Result of the heuristic: the synthesized call and the rewritten text. -/
structure InferredEdit where
  call : RepairCall
  strippedText : List Char
deriving Repr

/-- `inferEditFileFromResponse` (groq.ts). -/
def inferEditFileFromResponse (text lastUserContent : List Char) :
    Option InferredEdit :=
  let user := (jsTrim lastUserContent).map Char.toLower
  if ¬ createFileIntentTest user then none
  else
    match extractFirstCodeBlock text with
    | none => none
    | some block =>
      if jsTrim block.content = [] then none
      else
        let path :=
          match namedFileMatch lastUserContent with
          | some p => p
          | none =>
            match createFileMatch lastUserContent with
            | some p => p
            | none => (languageDefaultPath block.lang).getD "output.txt".toList
        let call : RepairCall :=
          ⟨"groq-heuristic-0", "edit_file",
            .obj [("path", .str ⟨path⟩), ("content", .str ⟨block.content⟩)]⟩
        let before := jsTrim (text.take block.start)
        let after := jsTrim (text.drop block.stop)
        let stripped :=
          jsTrim (List.intercalate "\n\n".toList
            ([before, confirmationSentence, after].filter (fun l => !l.isEmpty)))
        some ⟨call, stripped⟩

/-! ## Fallback router (`router.ts`) -/

inductive ProviderKind where
  | gemini
  | groq
deriving Repr, DecidableEq

/-- `ProviderConfig` (config.ts). -/
structure ProviderConfig where
  provider : ProviderKind
  model : String
  apiKey : String
deriving Repr, DecidableEq

/-- `TurnResponse` (llm/types.ts). -/
structure TurnResponse where
  text : Option (List Char) := none
  functionCalls : Option (List RepairCall) := none
deriving Repr, Inhabited

/-- An error thrown by an adapter, with the optional HTTP-like status
fields and network code inspected by `isRetryableError`. -/
structure ProviderError where
  status : Option Int := none
  statusCode : Option Int := none
  responseStatus : Option Int := none
  code : Option String := none
  message : String := ""
deriving Repr, DecidableEq

/-- `error?.status ?? error?.statusCode ?? error?.response?.status`. -/
def effectiveStatus (e : ProviderError) : Option Int :=
  match e.status with
  | some s => some s
  | none => match e.statusCode with
    | some s => some s
    | none => e.responseStatus

/-- `isRetryableError` (router.ts). -/
def isRetryableError (e : ProviderError) : Bool :=
  (effectiveStatus e = some 429 ∨ effectiveStatus e = some 500 ∨
   effectiveStatus e = some 503) ∨
  (e.code = some "ECONNRESET" ∨ e.code = some "ETIMEDOUT" ∨
   e.code = some "ENOTFOUND") ∨
  (containsSub e.message.toList "429".toList ∨
   containsSub e.message.toList "500".toList ∨
   containsSub e.message.toList "503".toList ∨
   containsSub e.message.toList "rate limit".toList)

/-- What `throw` rethrows when the cascade is exhausted: the captured last
error, or JS `undefined` when the cascade is empty and the loop never ran. -/
inductive RouterFailure where
  | thrown (e : ProviderError)
  | thrownUndefined
deriving Repr, DecidableEq

/-- Router state: the fixed cascade plus the sticky index (`currentIndex`). -/
structure RouterState where
  providerConfigs : List ProviderConfig
  currentIndex : Nat
deriving Repr

/-- The `for (let i = 0; …)` cascade loop of `Router.sendTurn`: `remaining`
counts the iterations still to run (initially the cascade length) and `i` is
the loop counter.  The adapter for each provider is an oracle describing the
outcome of that provider's network round trip on this history. -/
def sendTurnGo {μ : Type} (configs : List ProviderConfig)
    (adapter : ProviderConfig → μ → Except ProviderError TurnResponse)
    (messages : μ) (startIndex : Nat) :
    Nat → Nat → Option ProviderError → Except RouterFailure (TurnResponse × Nat)
  | 0, _, lastError =>
    match lastError with
    | some e => .error (.thrown e)
    | none => .error .thrownUndefined
  | remaining + 1, i, _lastError =>
    let idx := (startIndex + i) % configs.length
    let config := configs.getD idx ⟨.gemini, "", ""⟩
    match adapter config messages with
    | .ok out => .ok (out, idx)
    | .error e =>
      if isRetryableError e ∧ 1 < configs.length then
        sendTurnGo configs adapter messages startIndex remaining (i + 1) (some e)
      else .error (.thrown e)

/-- `Router.sendTurn` (router.ts): try providers starting at the sticky
index, wrapping; on success return the result and the updated state. -/
def Router.sendTurn {μ : Type} (st : RouterState)
    (adapter : ProviderConfig → μ → Except ProviderError TurnResponse)
    (messages : μ) : Except RouterFailure (TurnResponse × RouterState) :=
  match sendTurnGo st.providerConfigs adapter messages st.currentIndex
      st.providerConfigs.length 0 none with
  | .ok (out, idx) => .ok (out, { st with currentIndex := idx })
  | .error f => .error f

/-! ## Path containment (`utils/path.ts`) -/

/-- Split a character list at every `/`. -/
def splitSlash : List Char → List (List Char)
  | [] => [[]]
  | '/' :: rest => [] :: splitSlash rest
  | c :: rest =>
    match splitSlash rest with
    | seg :: segs => (c :: seg) :: segs
    | [] => [[c]]

/-- `path.normalize` of an absolute POSIX path: split on `/`, drop empty
and `.` segments, let `..` pop, re-join under the root. -/
def normalizeAbs (p : String) : String :=
  let stack := (splitSlash p.toList).foldl
    (fun (st : List (List Char)) seg =>
      if seg = [] ∨ seg = ['.'] then st
      else if seg = ['.', '.'] then st.dropLast
      else st ++ [seg]) []
  ⟨'/' :: List.intercalate ['/'] stack⟩

/-- `path.resolve(base, p)` for an absolute `base` (the project root is
`process.cwd()`, an absolute path). -/
def nodeResolve (base p : String) : String :=
  if leadsWith ['/'] p.toList then normalizeAbs p
  else normalizeAbs (base ++ "/" ++ p)

/-- `resolveProjectPath` (utils/path.ts).  Purely lexical: no filesystem
access.  (In the source, `normalizedResolved` equals `resolved` on both
branches of its conditional expression.) -/
def resolveProjectPath (projectRoot : String) (relativeOrAbsolute : String) :
    Except String String :=
  if relativeOrAbsolute = "" then .error "Path is required"
  else
    let resolved := nodeResolve projectRoot relativeOrAbsolute
    let normalizedRoot := normalizeAbs projectRoot ++ "/"
    let normalizedResolved := resolved
    if ¬ leadsWith normalizedRoot.toList normalizedResolved.toList ∧
        normalizedResolved ≠ projectRoot then
      .error "Access outside project root is not allowed"
    else .ok resolved

/-! ## Safety guard and tool executor (`utils/safety.ts`, `core/tools.ts`) -/

/-- `SafetyConfig` / the flags held by `SafetyGuard`. -/
structure SafetyConfig where
  autoApprove : Bool := false
  confirmFileReads : Bool := false
deriving Repr

/-- `SafetyGuard.shouldConfirmFileReads`. -/
def shouldConfirmFileReads (g : SafetyConfig) : Bool :=
  ¬ g.autoApprove ∧ g.confirmFileReads

/-- The command blacklist of `SafetyGuard.validateCommand`. -/
def commandBlacklist : List String :=
  ["rm -rf /", "mkfs", ":()\x7b :|:& \x7d;:", "dd if=/dev/zero"]

/-- `SafetyGuard.validateCommand`: reject when any blacklisted substring
occurs. -/
def validateCommand (command : String) : Bool :=
  ¬ commandBlacklist.any (fun b => containsSub command.toList b.toList)

/-- A directory entry as seen through `readdir(withFileTypes)`. -/
structure FsEntry where
  name : String
  isDir : Bool
deriving Repr, DecidableEq

/-- Outcome of `execa(command, { shell: true, reject: false })`: the child's
captured streams and real exit code (`reject:false` reports non-zero exits
here rather than throwing; the `Except.error` case is a spawn failure). -/
structure ExecResult where
  stdout : String
  stderr : String
  exitCode : Int
deriving Repr, DecidableEq

/-- Oracles for the platform effects the executor performs.  Each call site
in the source awaits one of these; an `Except.error` is the platform API
throwing. -/
structure ToolEnv where
  userConfirm : String → String → Bool
  readdir : String → Except String (List FsEntry)
  statSize : String → Except String Nat
  readFileUtf8 : String → Except String String
  fileExists : String → Bool
  writeFile : String → String → Except String Unit
  execCommand : String → Except String ExecResult

/-- `SafetyGuard.confirmAction`: auto-approve short-circuits to `true`,
otherwise the interactive prompt decides. -/
def confirmAction (g : SafetyConfig) (env : ToolEnv)
    (action details : String) : Bool :=
  if g.autoApprove then true else env.userConfirm action details

/-- The result object of one tool operation. -/
inductive ToolResult where
  | listing (entries : List FsEntry)
  | readRes (content : String) (truncated : Bool) (size : Nat)
      (returnedSize : Option Nat) (note : Option String)
  | cancelled
  | editOk (message : String)
  | cmdRes (stdout stderr : String) (exitCode : Int)
  | error (message : String)
deriving Repr

/-- UTF-16 code units of one code point. -/
def utf16Units (c : Char) : Nat := if c.toNat < 0x10000 then 1 else 2

/-- UTF-16 length of a JS string. -/
def utf16Len : List Char → Nat
  | [] => 0
  | c :: rest => utf16Units c + utf16Len rest

/-- UTF-8 byte count of a JS string when written to disk (what `fs.stat`
reports for a text file and what `Buffer.byteLength` computes). -/
def utf8Bytes : List Char → Nat
  | [] => 0
  | c :: rest => c.utf8Size + utf8Bytes rest

/-- `s.slice(0, n)` / `s.substring(0, n)`: a prefix by UTF-16 code units
(a split inside a surrogate pair — which would leave a lone surrogate in
JS — is approximated by stopping before the pair). -/
def jsSliceUnits : List Char → Nat → List Char
  | [], _ => []
  | c :: rest, n =>
    if utf16Units c ≤ n then c :: jsSliceUnits rest (n - utf16Units c) else []

/-- The 200 KiB size threshold of `readFile`. -/
def readThreshold : Nat := 200 * 1024

/-- The note attached to truncated reads. -/
def readFileNote : String :=
  "File is large; only a leading portion was returned. Summarize this content and request more specific sections if needed."

/-- `ToolExecutor.listFiles`: the path-containment check is outside the
`try`, so its exception propagates to `execute`'s catch-all. -/
def ToolExecutor.listFiles (root : String) (env : ToolEnv)
    (dirPath : Option String) : Except String ToolResult := do
  let target ← resolveProjectPath root
    (match dirPath with
     | none => "."
     | some p => if p = "" then "." else p)
  match env.readdir target with
  | .ok entries =>
    return .listing
      (entries.filter (fun e => ¬ (e.name = "node_modules" ∨ e.name = ".git")))
  | .error m => return .error ("Failed to list directory: " ++ m)

/-- `ToolExecutor.readFile`: size-aware with a confirmation gate for large
reads (or when reads must always be confirmed).  The confirmation details
string in the source carries a human-readable size (`toFixed` float
formatting, presentational only); the prompt oracle here receives the file
path. -/
def ToolExecutor.readFile (root : String) (g : SafetyConfig) (env : ToolEnv) :
    Option String → Except String ToolResult
  | none => pure (.error "Path is required")
  | some fp =>
    if fp = "" then pure (.error "Path is required")
    else
      match resolveProjectPath root fp with
      | .error m => pure (.error (if m = "" then "Invalid path" else m))
      | .ok targetPath =>
        match env.statSize targetPath with
        | .error m => pure (.error ("Failed to read file: " ++ m))
        | .ok fileSize =>
          let isLarge := readThreshold < fileSize
          if (shouldConfirmFileReads g ∨ isLarge) ∧
              ¬ confirmAction g env "Read File" fp then
            pure .cancelled
          else
            match env.readFileUtf8 targetPath with
            | .error m => pure (.error ("Failed to read file: " ++ m))
            | .ok content =>
              if ¬ isLarge then
                pure (.readRes content false fileSize none none)
              else
                let preview := jsSliceUnits content.toList readThreshold
                pure (.readRes ⟨preview⟩ true fileSize
                  (some (utf8Bytes preview)) (some readFileNote))

/-- `ToolExecutor.editFile`: full-content replace after a confirmation whose
details carry the path and the first 100 characters of the content. -/
def ToolExecutor.editFile (root : String) (g : SafetyConfig) (env : ToolEnv) :
    Option String → Option String → Except String ToolResult
  | none, _ => pure (.error "Path is required")
  | some fp, content =>
    if fp = "" then pure (.error "Path is required")
    else
      match resolveProjectPath root fp with
      | .error m => pure (.error (if m = "" then "Invalid path" else m))
      | .ok targetPath =>
        let isNew := ¬ env.fileExists targetPath
        let actionDesc := if isNew then "Create File" else "Edit File"
        let fileContent := match content with
          | none => ""
          | some c => c
        let details := fp ++ "\nPreview first 100 chars:\n" ++
          (⟨jsSliceUnits fileContent.toList 100⟩ : String) ++ "..."
        if ¬ confirmAction g env actionDesc details then
          pure .cancelled
        else
          match env.writeFile targetPath fileContent with
          | .ok _ => pure (.editOk ("File " ++ fp ++ " written successfully."))
          | .error m => pure (.error ("Failed to write file: " ++ m))

/-- `ToolExecutor.runCommand`: blacklist, confirmation, then shell execution
with `reject: false`; the returned payload hardcodes `exitCode: 0` and drops
the child's real exit code. -/
def ToolExecutor.runCommand (g : SafetyConfig) (env : ToolEnv) :
    Option String → Except String ToolResult
  | none => pure (.error "Command is required")
  | some cmd =>
    if cmd = "" then pure (.error "Command is required")
    else if ¬ validateCommand cmd then
      pure (.error "Command blocked by safety filter.")
    else if ¬ confirmAction g env "Run Command" cmd then
      pure .cancelled
    else
      match env.execCommand cmd with
      | .ok res => pure (.cmdRes res.stdout res.stderr 0)
      | .error m => pure (.error ("Execution failed: " ++ m))

/-- The model-facing argument object of a tool call (the fields the four
operations read). -/
structure ToolArgs where
  path : Option String := none
  content : Option String := none
  command : Option String := none
deriving Repr

/-- The tool names `execute` dispatches on. -/
def knownToolNames : List String :=
  ["list_files", "read_file", "edit_file", "run_command"]

/-- The `switch` of `ToolExecutor.execute` (inside its `try`): unknown names
throw. -/
def ToolExecutor.executeInner (root : String) (g : SafetyConfig) (env : ToolEnv)
    (name : String) (args : Option ToolArgs) : Except String ToolResult :=
  let safeArgs := args.getD {}
  if name = "list_files" then ToolExecutor.listFiles root env safeArgs.path
  else if name = "read_file" then ToolExecutor.readFile root g env safeArgs.path
  else if name = "edit_file" then
    ToolExecutor.editFile root g env safeArgs.path safeArgs.content
  else if name = "run_command" then
    ToolExecutor.runCommand g env safeArgs.command
  else .error ("Unknown tool: " ++ name)

/-- `ToolExecutor.execute`: the catch-all converts any thrown error into a
normal `{ error: message }` result. -/
def ToolExecutor.execute (root : String) (g : SafetyConfig) (env : ToolEnv)
    (name : String) (args : Option ToolArgs) : ToolResult :=
  match ToolExecutor.executeInner root g env name args with
  | .ok r => r
  | .error m => .error m

/-! ## Shared concrete instances used by witnesses and counterexamples -/

/-- A benign environment: every prompt approved, every platform call
succeeds trivially. -/
def sampleEnv : ToolEnv where
  userConfirm := fun _ _ => true
  readdir := fun _ => .ok []
  statSize := fun _ => .ok 0
  readFileUtf8 := fun _ => .ok ""
  fileExists := fun _ => false
  writeFile := fun _ _ => .ok ()
  execCommand := fun _ => .ok ⟨"", "", 0⟩

/-- An environment whose shell reports a failing child process: empty
stdout, diagnostic stderr, exit code 1 (delivered, not thrown, because of
`reject: false`). -/
def failingExecEnv : ToolEnv :=
  { sampleEnv with execCommand := fun _ => .ok ⟨"", "boom", 1⟩ }

/-- "Lands outside the workspace root": the lexically resolved path is
neither the root itself nor strictly under it. -/
def landsOutside (root resolved : String) : Prop :=
  ¬ (leadsWith (root ++ "/").toList resolved.toList = true ∨ resolved = root)

/-- The provider the cascade loop tries at offset `j` from the sticky
index. -/
def cascadeProviderAt (st : RouterState) (j : Nat) : ProviderConfig :=
  st.providerConfigs.getD ((st.currentIndex + j) % st.providerConfigs.length)
    ⟨.gemini, "", ""⟩

/-- A concrete Groq cascade entry (P1 of the two-provider scenario). -/
def groqP1 : ProviderConfig := ⟨.groq, "llama-3.3-70b-versatile", "k1"⟩

/-- A concrete Gemini cascade entry (P2 of the two-provider scenario). -/
def geminiP2 : ProviderConfig := ⟨.gemini, "gemini-exp-1206", "k2"⟩

/-- A rate-limit failure (HTTP-like status 429). -/
def rateLimit429 : ProviderError := { status := some 429 }

/-- A server failure (HTTP-like status 500). -/
def serverErr500 : ProviderError := { status := some 500 }

/-- A successful turn result. -/
def okTurn : TurnResponse := { text := some "done".toList }

/-- The two-provider cascade `[P1, P2]` with the sticky index at P1. -/
def twoProviderRouter : RouterState := ⟨[groqP1, geminiP2], 0⟩

/-- Adapter oracle: P1 always fails with status 429, every other provider
succeeds. -/
def failThenOkAdapter : ProviderConfig → Unit → Except ProviderError TurnResponse :=
  fun c _ => if c = groqP1 then .error rateLimit429 else .ok okTurn

/-- Adapter oracle: P1 always fails with status 429, every other provider
fails with status 500. -/
def allFailAdapter : ProviderConfig → Unit → Except ProviderError TurnResponse :=
  fun c _ => if c = groqP1 then .error rateLimit429 else .error serverErr500

/-- A text file of 68267 copies of `✓` (U+2713, 3 UTF-8 bytes each):
exactly `readThreshold + 1 = 204801` bytes on disk. -/
def bigContent : String := ⟨List.replicate 68267 '✓'⟩

/-- Environment exposing `bigContent` as a 204801-byte file. -/
def bigFileEnv : ToolEnv :=
  { sampleEnv with
    statSize := fun _ => .ok 204801
    readFileUtf8 := fun _ => .ok bigContent }

/-- Safety flags with auto-approve on (every confirmation gate passes). -/
def autoApproveGuard : SafetyConfig := { autoApprove := true }

/-- The user turn of the end-to-end heuristic scenario. -/
def c4user : List Char := "create a file named notes.txt with hello".toList

/-- A response whose fenced block (body `hello`) is followed by trailing
text. -/
def c4cexText : List Char := "```\nhello``` bye".toList

/-- The text the heuristic substitutes for the model's narration: the
trimmed text before the block, the confirmation sentence, and the trimmed
text after the block — nonempty pieces joined by blank lines, trimmed. -/
def heuristicRewrite (text : List Char) (b : CodeBlock) : List Char :=
  jsTrim (List.intercalate "\n\n".toList
    ([jsTrim (text.take b.start), confirmationSentence,
      jsTrim (text.drop b.stop)].filter (fun l => !l.isEmpty)))

/-- Brace balance of a character list: occurrences of `\x7b` minus
occurrences of `\x7d` (what the depth scan tracks). -/
def braceBal (l : List Char) : Int :=
  (l.count '{' : Int) - (l.count '}' : Int)

/-- A well-formed marker span `<function=NAME\x7bJSON\x7d>` (or, with
`paren = true`, `<function=NAME(\x7bJSON\x7d)>`). -/
def wfSpan (paren : Bool) (name json : List Char) : List Char :=
  markerToken ++ name ++
    (if paren then '(' :: (json ++ [')']) else json) ++ ['>']

/-- A text holding exactly one well-formed marker span, preceded by a
malformed marker occurrence (`<function=1 `) whose non-identifier first
character makes the scanner `break`. -/
def c1cexText : List Char :=
  "<function=1 <function=foo\x7b\"a\":1\x7d>".toList

/-! ## C3: the brace-depth scan stops at a `\x7d` inside a string literal -/

/-- Response text carrying the marker span
`<function=foo\x7b"a":"\x7d"\x7d>` whose embedded JSON object holds a
literal closing brace inside a string value. -/
def c3text : List Char := "<function=foo\x7b\"a\":\"\x7d\"\x7d>".toList

/-- The (intended) embedded JSON object `\x7b"a":"\x7d"\x7d`. -/
def c3intended : List Char := "\x7b\"a\":\"\x7d\"\x7d".toList

/-- The payload the depth scan actually extracts: a 7-character prefix of
the intended 9-character object. -/
def c3payload : List Char := c3intended.take 7

/-- C3: on a marker span whose JSON object holds a literal `\x7d` inside a
string value, the brace-depth scan (which counts every brace regardless of
string context) stops at that in-string brace: on the intended object it
stops at index 6 rather than at the final index 8, the extracted payload is
a strict prefix of the intended object, that prefix fails `JSON.parse`, and
the emitted `ToolCall` carries the empty argument mapping — one call named
`foo` is still produced, so the turn does not fail. -/
theorem repair_brace_scan_string_limitation :
    braceGo c3intended 0 0 = some 6 ∧
    c3intended.length = 9 ∧
    (c3payload ≠ c3intended ∧ c3intended.take 7 = c3payload) ∧
    jsonParse c3payload = none ∧
    parseArgs c3payload = Json.obj [] ∧
    repairMalformedToolCalls c3text =
      ([⟨"groq-repair-0", "foo", Json.obj []⟩], "\"\x7d>".toList) :=
  ⟨rfl, rfl, ⟨by decide, rfl⟩, rfl, rfl, rfl⟩

/-! ## C6: path containment of `resolveProjectPath` -/

/-- C6 (amended): for every **non-empty** input path, `resolveProjectPath`
fails — purely lexically, before any filesystem access — exactly when the
path resolved against the root `/work` lands outside that root, and
otherwise returns the resolved absolute path; in particular `"../outside"`
fails with the path-access error and `"sub/file.txt"` resolves to
`/work/sub/file.txt`. -/
theorem resolve_path_containment (p : String) (hp : p ≠ "") :
    ((resolveProjectPath "/work" p =
        .error "Access outside project root is not allowed") ↔
      landsOutside "/work" (nodeResolve "/work" p)) ∧
    (¬ landsOutside "/work" (nodeResolve "/work" p) →
      resolveProjectPath "/work" p = .ok (nodeResolve "/work" p)) ∧
    resolveProjectPath "/work" "../outside" =
      .error "Access outside project root is not allowed" ∧
    resolveProjectPath "/work" "sub/file.txt" = .ok "/work/sub/file.txt" := by
  have hstep : resolveProjectPath "/work" p =
      if ¬ leadsWith ("/work/" : String).toList (nodeResolve "/work" p).toList = true ∧
          nodeResolve "/work" p ≠ "/work"
      then .error "Access outside project root is not allowed"
      else .ok (nodeResolve "/work" p) := by
    unfold resolveProjectPath
    rw [if_neg hp]
    rfl
  have hiff : ∀ r : String, landsOutside "/work" r ↔
      (¬ leadsWith ("/work/" : String).toList r.toList = true ∧ r ≠ "/work") := by
    intro r
    unfold landsOutside
    exact not_or
  refine ⟨?_, ?_, rfl, rfl⟩
  · rw [hstep]
    by_cases h : ¬ leadsWith ("/work/" : String).toList
        (nodeResolve "/work" p).toList = true ∧ nodeResolve "/work" p ≠ "/work"
    · rw [if_pos h]
      exact ⟨fun _ => (hiff _).mpr h, fun _ => rfl⟩
    · rw [if_neg h]
      exact ⟨fun hc => absurd hc (by simp), fun hout => absurd ((hiff _).mp hout) h⟩
  · intro hin
    rw [hstep, if_neg (fun hc => hin ((hiff _).mpr hc))]

/-- C6 counterexample to the claim as stated: the empty input path resolves
to `/work` itself — not outside the root — yet `resolveProjectPath` fails
(with `Path is required`, before any resolution). -/
theorem resolve_path_empty_cex :
    resolveProjectPath "/work" "" = .error "Path is required" ∧
    nodeResolve "/work" "" = "/work" ∧
    ¬ landsOutside "/work" (nodeResolve "/work" "") :=
  ⟨rfl, rfl, fun h => h (Or.inr rfl)⟩

/-- Witness for `resolve_path_containment` at the concrete in-root path. -/
theorem resolve_path_containment_witness :
    resolveProjectPath "/work" "sub/file.txt" = .ok "/work/sub/file.txt" :=
  (resolve_path_containment "sub/file.txt" (by decide)).2.2.2

/-! ## C8: `run_command` success payload and the dropped exit code -/

/-- C8 (amended): every non-empty command that passes the blacklist and is
confirmed is executed via the shell and never treated as an executor
failure — the captured stdout and stderr come back as a normal success
payload — but the payload's `exitCode` field is hardcoded to `0`; the
child's real exit code is dropped rather than reported. -/
theorem run_command_success_payload (g : SafetyConfig) (env : ToolEnv)
    (cmd : String) (res : ExecResult) (hcmd : cmd ≠ "")
    (hval : validateCommand cmd = true)
    (hconf : confirmAction g env "Run Command" cmd = true)
    (hexec : env.execCommand cmd = .ok res) :
    ToolExecutor.runCommand g env (some cmd) =
      .ok (.cmdRes res.stdout res.stderr 0) := by
  simp only [ToolExecutor.runCommand]
  rw [if_neg hcmd, if_neg (fun hc => hc hval), if_neg (fun hc => hc hconf), hexec]
  rfl

/-- Witness for `run_command_success_payload`. -/
theorem run_command_success_payload_witness :
    ToolExecutor.runCommand {} sampleEnv (some "ls -la") =
      .ok (.cmdRes "" "" 0) :=
  run_command_success_payload {} sampleEnv "ls -la" ⟨"", "", 0⟩
    (by decide) (by decide) rfl rfl

/-- C8 counterexample to the claim as stated: a child process exiting with
code 1 produces a success payload whose `exitCode` field is `0` — the
non-zero exit code is not reported as data in the payload. -/
theorem run_command_exit_code_cex :
    ToolExecutor.runCommand {} failingExecEnv (some "false") =
      .ok (.cmdRes "" "boom" 0) ∧
    failingExecEnv.execCommand "false" = .ok ⟨"", "boom", 1⟩ ∧
    (0 : Int) ≠ 1 :=
  ⟨rfl, rfl, by decide⟩

/-! ## C9: totality of `ToolExecutor.execute` -/

/-- C9: `execute` is total over all tool names and argument objects
(including absent arguments): a normal result of the switch passes through
unchanged, any error thrown inside the switch is converted by the catch-all
into a normal `\x7b error: message \x7d` result rather than propagating,
and an unknown tool name yields exactly the `Unknown tool` error result. -/
theorem execute_never_throws (root : String) (g : SafetyConfig) (env : ToolEnv)
    (name : String) (args : Option ToolArgs) :
    (∀ r, ToolExecutor.executeInner root g env name args = .ok r →
      ToolExecutor.execute root g env name args = r) ∧
    (∀ m, ToolExecutor.executeInner root g env name args = .error m →
      ToolExecutor.execute root g env name args = .error m) ∧
    (name ∉ knownToolNames →
      ToolExecutor.execute root g env name args =
        .error ("Unknown tool: " ++ name)) := by
  refine ⟨?_, ?_, ?_⟩
  · intro r h; unfold ToolExecutor.execute; rw [h]
  · intro m h; unfold ToolExecutor.execute; rw [h]
  · intro hname
    simp only [knownToolNames, List.mem_cons, List.not_mem_nil, or_false,
      not_or] at hname
    obtain ⟨h1, h2, h3, h4⟩ := hname
    unfold ToolExecutor.execute ToolExecutor.executeInner
    rw [if_neg h1, if_neg h2, if_neg h3, if_neg h4]

/-- Witness for `execute_never_throws`: an unknown tool name with absent
arguments degrades to a normal error result. -/
theorem execute_never_throws_witness :
    ToolExecutor.execute "/work" {} sampleEnv "frobnicate" none =
      .error ("Unknown tool: " ++ "frobnicate") :=
  (execute_never_throws "/work" {} sampleEnv "frobnicate" none).2.2 (by decide)

/-! ## Cascade loop lemmas -/

/-- If the providers tried at loop counters `i ≤ c < i + k` all fail
retryably and the provider at counter `i + k` succeeds, the loop returns
that provider's result together with its cascade position. -/
theorem sendTurnGo_first_success {μ : Type} (configs : List ProviderConfig)
    (adapter : ProviderConfig → μ → Except ProviderError TurnResponse)
    (messages : μ) (startIndex : Nat) (errs : Nat → ProviderError)
    (r : TurnResponse) :
    ∀ (k remaining i : Nat) (last : Option ProviderError),
      k < remaining →
      (1 < configs.length ∨ k = 0) →
      (∀ c, i ≤ c → c < i + k →
        adapter (configs.getD ((startIndex + c) % configs.length)
          ⟨.gemini, "", ""⟩) messages = .error (errs c) ∧
        isRetryableError (errs c) = true) →
      adapter (configs.getD ((startIndex + (i + k)) % configs.length)
        ⟨.gemini, "", ""⟩) messages = .ok r →
      sendTurnGo configs adapter messages startIndex remaining i last =
        .ok (r, (startIndex + (i + k)) % configs.length) := by
  intro k
  induction k with
  | zero =>
    intro remaining i last hrem _ _ hok
    match remaining, hrem with
    | rem + 1, _ =>
      rw [show i + 0 = i from rfl] at hok
      simp only [sendTurnGo, hok]
      rfl
  | succ k ih =>
    intro remaining i last hrem hlen hfail hok
    match remaining, hrem with
    | rem + 1, hrem =>
      have hlen' : 1 < configs.length := hlen.resolve_right (by omega)
      have h0 := hfail i (Nat.le_refl i) (by omega)
      simp only [sendTurnGo, h0.1]
      rw [if_pos ⟨h0.2, hlen'⟩]
      have harith : (i + 1) + k = i + (k + 1) := by omega
      have hrec := ih rem (i + 1) (some (errs i)) (by omega) (Or.inl hlen')
        (fun c h1 h2 => hfail c (by omega) (by omega))
        (by rw [harith]; exact hok)
      rw [hrec, harith]

/-- If every provider tried at loop counters `i ≤ c < i + remaining` fails
retryably (and more than one provider is configured, so the loop keeps
advancing), the exhausted loop rethrows the error of the last provider
tried. -/
theorem sendTurnGo_all_fail {μ : Type} (configs : List ProviderConfig)
    (adapter : ProviderConfig → μ → Except ProviderError TurnResponse)
    (messages : μ) (startIndex : Nat) (errs : Nat → ProviderError)
    (hlen : 1 < configs.length) :
    ∀ (remaining i : Nat) (last : Option ProviderError),
      1 ≤ remaining →
      (∀ c, i ≤ c → c < i + remaining →
        adapter (configs.getD ((startIndex + c) % configs.length)
          ⟨.gemini, "", ""⟩) messages = .error (errs c) ∧
        isRetryableError (errs c) = true) →
      sendTurnGo configs adapter messages startIndex remaining i last =
        .error (.thrown (errs (i + remaining - 1))) := by
  intro remaining
  induction remaining with
  | zero => intro i last h; omega
  | succ rem ih =>
    intro i last _ hfail
    have h0 := hfail i (Nat.le_refl i) (by omega)
    simp only [sendTurnGo, h0.1]
    rw [if_pos ⟨h0.2, hlen⟩]
    match rem, ih with
    | 0, _ =>
      simp only [sendTurnGo]
      rfl
    | rem + 1, ih =>
      have hrec := ih (i + 1) (some (errs i)) (by omega)
        (fun c h1 h2 => hfail c (by omega) (by omega))
      rw [hrec, show (i + 1) + (rem + 1) - 1 = i + (rem + 1 + 1) - 1 from by omega]

/-- If the providers tried at loop counters `i ≤ c < i + k` fail retryably
and the provider at counter `i + k` fails non-retryably, the loop rethrows
that error at once, aborting the cascade. -/
theorem sendTurnGo_abort {μ : Type} (configs : List ProviderConfig)
    (adapter : ProviderConfig → μ → Except ProviderError TurnResponse)
    (messages : μ) (startIndex : Nat) (errs : Nat → ProviderError)
    (e : ProviderError) (he : isRetryableError e = false) :
    ∀ (k remaining i : Nat) (last : Option ProviderError),
      k < remaining →
      (1 < configs.length ∨ k = 0) →
      (∀ c, i ≤ c → c < i + k →
        adapter (configs.getD ((startIndex + c) % configs.length)
          ⟨.gemini, "", ""⟩) messages = .error (errs c) ∧
        isRetryableError (errs c) = true) →
      adapter (configs.getD ((startIndex + (i + k)) % configs.length)
        ⟨.gemini, "", ""⟩) messages = .error e →
      sendTurnGo configs adapter messages startIndex remaining i last =
        .error (.thrown e) := by
  intro k
  induction k with
  | zero =>
    intro remaining i last hrem _ _ hbad
    match remaining, hrem with
    | rem + 1, _ =>
      rw [show i + 0 = i from rfl] at hbad
      simp only [sendTurnGo, hbad]
      rw [if_neg (fun hc => by rw [he] at hc; simp at hc)]
  | succ k ih =>
    intro remaining i last hrem hlen hfail hbad
    match remaining, hrem with
    | rem + 1, hrem =>
      have hlen' : 1 < configs.length := hlen.resolve_right (by omega)
      have h0 := hfail i (Nat.le_refl i) (by omega)
      simp only [sendTurnGo, h0.1]
      rw [if_pos ⟨h0.2, hlen'⟩]
      exact ih rem (i + 1) (some (errs i)) (by omega) (Or.inl hlen')
        (fun c h1 h2 => hfail c (by omega) (by omega))
        (by rw [show (i + 1) + k = i + (k + 1) from by omega]; exact hbad)

/-! ## C2: first success wins and updates the sticky index -/

/-- C2: for every cascade, sticky index, message history and adapter
behaviour, `Router.sendTurn` tries the providers in cascade order starting
at the sticky index and wrapping around; if the first `k` providers tried
fail retryably and the provider at offset `k` succeeds with result `r`,
`sendTurn` returns exactly `r` together with the state whose sticky index
is that provider's cascade position — so the next `sendTurn` starts
there. -/
theorem router_first_success {μ : Type} (st : RouterState)
    (adapter : ProviderConfig → μ → Except ProviderError TurnResponse)
    (messages : μ) (k : Nat) (errs : Nat → ProviderError) (r : TurnResponse)
    (hk : k < st.providerConfigs.length)
    (hfail : ∀ j, j < k →
      adapter (cascadeProviderAt st j) messages = .error (errs j) ∧
      isRetryableError (errs j) = true)
    (hok : adapter (cascadeProviderAt st k) messages = .ok r) :
    Router.sendTurn st adapter messages =
      .ok (r, { st with currentIndex :=
        (st.currentIndex + k) % st.providerConfigs.length }) := by
  unfold Router.sendTurn
  unfold cascadeProviderAt at hok
  have hres := sendTurnGo_first_success st.providerConfigs adapter messages
    st.currentIndex errs r k st.providerConfigs.length 0 none hk (by omega)
    (fun c _ hc => by
      have h := hfail c (by omega)
      unfold cascadeProviderAt at h
      exact h)
    (by rw [show (0 : Nat) + k = k from by omega]; exact hok)
  simp only [hres]
  rw [show (0 : Nat) + k = k from by omega]

/-- Witness for `router_first_success`: the two-provider scenario
`[P1 always 429, P2 ok]` returns P2's result with the sticky index moved to
P2, and a subsequent `sendTurn` from the returned state stays on P2. -/
theorem router_first_success_witness :
    Router.sendTurn twoProviderRouter failThenOkAdapter () =
      .ok (okTurn, ⟨[groqP1, geminiP2], 1⟩) ∧
    Router.sendTurn ⟨[groqP1, geminiP2], 1⟩ failThenOkAdapter () =
      .ok (okTurn, ⟨[groqP1, geminiP2], 1⟩) := by
  constructor
  · exact router_first_success twoProviderRouter failThenOkAdapter () 1
      (fun _ => rateLimit429) okTurn (by decide)
      (fun j hj => by
        match j, hj with
        | 0, _ => exact ⟨rfl, rfl⟩)
      rfl
  · exact router_first_success ⟨[groqP1, geminiP2], 1⟩ failThenOkAdapter () 0
      (fun _ => rateLimit429) okTurn (by decide)
      (fun j hj => by omega)
      rfl

/-! ## C5: retryable exhaustion rethrows the last error; non-retryable
failures abort at once -/

/-- C5: if every provider of the cascade fails retryably (statuses 429,
500, 503; codes `ECONNRESET`, `ETIMEDOUT`, `ENOTFOUND`; or a message
containing one of `429`/`500`/`503`/`rate limit`), `Router.sendTurn`
throws the error raised by the last provider tried; and the first
non-retryable failure is immediately rethrown, aborting the cascade. -/
theorem router_exhaustion_and_abort {μ : Type} (st : RouterState)
    (adapter : ProviderConfig → μ → Except ProviderError TurnResponse)
    (messages : μ) :
    (∀ errs : Nat → ProviderError,
      1 ≤ st.providerConfigs.length →
      (∀ j, j < st.providerConfigs.length →
        adapter (cascadeProviderAt st j) messages = .error (errs j) ∧
        isRetryableError (errs j) = true) →
      Router.sendTurn st adapter messages =
        .error (.thrown (errs (st.providerConfigs.length - 1)))) ∧
    (∀ (k : Nat) (errs : Nat → ProviderError) (e : ProviderError),
      k < st.providerConfigs.length →
      (∀ j, j < k →
        adapter (cascadeProviderAt st j) messages = .error (errs j) ∧
        isRetryableError (errs j) = true) →
      adapter (cascadeProviderAt st k) messages = .error e →
      isRetryableError e = false →
      Router.sendTurn st adapter messages = .error (.thrown e)) := by
  constructor
  · intro errs hlen hfail
    unfold Router.sendTurn
    rcases Nat.lt_or_ge 1 st.providerConfigs.length with hgt | hle
    · have hres := sendTurnGo_all_fail st.providerConfigs adapter messages
        st.currentIndex errs hgt st.providerConfigs.length 0 none (by omega)
        (fun c _ hc => by
          have h := hfail c (by omega)
          unfold cascadeProviderAt at h
          exact h)
      simp only [hres]
      rw [show (0 : Nat) + st.providerConfigs.length - 1 =
        st.providerConfigs.length - 1 from by omega]
    · have hone : st.providerConfigs.length = 1 := by omega
      have h0 := hfail 0 (by omega)
      unfold cascadeProviderAt at h0
      have hres : sendTurnGo st.providerConfigs adapter messages
          st.currentIndex st.providerConfigs.length 0 none =
          .error (.thrown (errs 0)) := by
        rw [hone]
        simp only [sendTurnGo, h0.1]
        rw [if_neg (fun hc => absurd hc.2 (by omega))]
      simp only [hres]
      rw [hone]
  · intro k errs e hk hfail hbad hnre
    unfold Router.sendTurn
    unfold cascadeProviderAt at hbad
    have hres := sendTurnGo_abort st.providerConfigs adapter messages
      st.currentIndex errs e hnre k st.providerConfigs.length 0 none hk
      (by omega)
      (fun c _ hc => by
        have h := hfail c (by omega)
        unfold cascadeProviderAt at h
        exact h)
      (by rw [show (0 : Nat) + k = k from by omega]; exact hbad)
    simp only [hres]

/-- Witness for `router_exhaustion_and_abort`: a two-provider cascade in
which P1 fails with 429 and P2 with 500 throws P2's error (the last
provider tried). -/
theorem router_exhaustion_and_abort_witness :
    Router.sendTurn twoProviderRouter allFailAdapter () =
      .error (.thrown serverErr500) := by
  exact (router_exhaustion_and_abort twoProviderRouter allFailAdapter ()).1
    (fun j => if j = 0 then rateLimit429 else serverErr500) (by decide)
    (fun j hj => by
      match j, hj with
      | 0, _ => exact ⟨rfl, rfl⟩
      | 1, _ => exact ⟨rfl, rfl⟩)

/-! ## String-measure lemmas for `readFile` -/

theorem utf8Bytes_replicate (n : Nat) (c : Char) :
    utf8Bytes (List.replicate n c) = n * c.utf8Size := by
  induction n with
  | zero => simp [utf8Bytes]
  | succ n ih =>
    simp only [List.replicate_succ, utf8Bytes, ih]
    ring

theorem utf16Len_replicate (n : Nat) (c : Char) :
    utf16Len (List.replicate n c) = n * utf16Units c := by
  induction n with
  | zero => simp [utf16Len]
  | succ n ih =>
    simp only [List.replicate_succ, utf16Len, ih]
    ring

theorem utf16Units_pos (c : Char) : 1 ≤ utf16Units c := by
  unfold utf16Units
  split <;> omega

/-- A slice bound that covers the whole string returns it unchanged. -/
theorem jsSliceUnits_of_le (cs : List Char) :
    ∀ n, utf16Len cs ≤ n → jsSliceUnits cs n = cs := by
  induction cs with
  | nil => intro n _; rfl
  | cons c rest ih =>
    intro n hn
    simp only [utf16Len] at hn
    have hu : 1 ≤ utf16Units c := utf16Units_pos c
    simp only [jsSliceUnits, if_pos (by omega : utf16Units c ≤ n)]
    rw [ih (n - utf16Units c) (by omega)]

/-- The slice never exceeds the requested number of UTF-16 units. -/
theorem utf16Len_jsSliceUnits_le (cs : List Char) :
    ∀ n, utf16Len (jsSliceUnits cs n) ≤ n := by
  induction cs with
  | nil => intro n; simp [jsSliceUnits, utf16Len]
  | cons c rest ih =>
    intro n
    by_cases h : utf16Units c ≤ n
    · simp only [jsSliceUnits, if_pos h, utf16Len]
      have := ih (n - utf16Units c)
      omega
    · simp only [jsSliceUnits, if_neg h, utf16Len]
      omega

/-- Every character of a slice is a character of the original string. -/
theorem jsSliceUnits_subset (cs : List Char) :
    ∀ n x, x ∈ jsSliceUnits cs n → x ∈ cs := by
  induction cs with
  | nil => intro n x h; simp [jsSliceUnits] at h
  | cons c rest ih =>
    intro n x h
    by_cases hc : utf16Units c ≤ n
    · simp only [jsSliceUnits, if_pos hc, List.mem_cons] at h
      rcases h with h | h
      · exact h ▸ List.mem_cons_self c rest
      · exact List.mem_cons_of_mem c (ih _ x h)
    · simp [jsSliceUnits, if_neg hc] at h

theorem utf8Bytes_ascii (cs : List Char) (h : ∀ c ∈ cs, c.utf8Size = 1) :
    utf8Bytes cs = cs.length := by
  induction cs with
  | nil => rfl
  | cons c rest ih =>
    simp only [utf8Bytes, List.length_cons, h c (List.mem_cons_self c rest),
      ih (fun x hx => h x (List.mem_cons_of_mem c hx))]
    omega

theorem length_le_utf16Len (cs : List Char) : cs.length ≤ utf16Len cs := by
  induction cs with
  | nil => simp [utf16Len]
  | cons c rest ih =>
    simp only [utf16Len, List.length_cons]
    have := utf16Units_pos c
    omega

/-- Evaluation of `readFile` on a confirmed oversized file. -/
theorem readFile_large_eq (root : String) (g : SafetyConfig) (env : ToolEnv)
    (fp target content : String) (size : Nat) (hfp : fp ≠ "")
    (hresolve : resolveProjectPath root fp = .ok target)
    (hstat : env.statSize target = .ok size)
    (hsize : readThreshold < size)
    (hread : env.readFileUtf8 target = .ok content)
    (hconf : confirmAction g env "Read File" fp = true) :
    ToolExecutor.readFile root g env (some fp) =
      pure (.readRes ⟨jsSliceUnits content.toList readThreshold⟩ true size
        (some (utf8Bytes (jsSliceUnits content.toList readThreshold)))
        (some readFileNote)) := by
  simp only [ToolExecutor.readFile, if_neg hfp, hresolve, hstat, hread]
  rw [if_neg (fun hc => hc.2 hconf), if_neg (fun hc => hc hsize)]

/-! ## C7: `read_file` truncation of oversized files -/

/-- C7 (amended): for every file whose size exceeds the 200 KiB threshold,
a confirmed `read_file` returns `truncated: true` with the `note` telling
the caller to request narrower sections, and a `content` field that is the
leading `slice(0, threshold)` of the file's text — a prefix measured in
UTF-16 code units (at most `threshold` units), **not** in bytes; only when
every character is a single UTF-8 byte (ASCII) is the returned content also
at most `threshold` bytes. -/
theorem read_file_truncation (root : String) (g : SafetyConfig) (env : ToolEnv)
    (fp target content : String) (size : Nat) (hfp : fp ≠ "")
    (hresolve : resolveProjectPath root fp = .ok target)
    (hstat : env.statSize target = .ok size)
    (hsize : readThreshold < size)
    (hread : env.readFileUtf8 target = .ok content)
    (hconf : confirmAction g env "Read File" fp = true) :
    ToolExecutor.readFile root g env (some fp) =
      pure (.readRes ⟨jsSliceUnits content.toList readThreshold⟩ true size
        (some (utf8Bytes (jsSliceUnits content.toList readThreshold)))
        (some readFileNote)) ∧
    utf16Len (jsSliceUnits content.toList readThreshold) ≤ readThreshold ∧
    ((∀ c ∈ content.toList, c.utf8Size = 1) →
      utf8Bytes (jsSliceUnits content.toList readThreshold) ≤ readThreshold) := by
  refine ⟨readFile_large_eq root g env fp target content size hfp hresolve
    hstat hsize hread hconf, utf16Len_jsSliceUnits_le content.toList readThreshold,
    fun hascii => ?_⟩
  rw [utf8Bytes_ascii _ (fun c hc =>
    hascii c (jsSliceUnits_subset content.toList readThreshold c hc))]
  exact Nat.le_trans (length_le_utf16Len _)
    (utf16Len_jsSliceUnits_le content.toList readThreshold)

/-- Witness for `read_file_truncation` on the 204801-byte file. -/
theorem read_file_truncation_witness :
    ToolExecutor.readFile "/work" autoApproveGuard bigFileEnv (some "big.txt") =
      pure (.readRes ⟨jsSliceUnits bigContent.toList readThreshold⟩ true 204801
        (some (utf8Bytes (jsSliceUnits bigContent.toList readThreshold)))
        (some readFileNote)) ∧
    utf16Len (jsSliceUnits bigContent.toList readThreshold) ≤ readThreshold :=
  ⟨(read_file_truncation "/work" autoApproveGuard bigFileEnv "big.txt"
      "/work/big.txt" bigContent 204801 (by decide) rfl rfl (by decide) rfl
      rfl).1,
   (read_file_truncation "/work" autoApproveGuard bigFileEnv "big.txt"
      "/work/big.txt" bigContent 204801 (by decide) rfl rfl (by decide) rfl
      rfl).2.1⟩

/-- C7 counterexample to the claim as stated: a file of exactly
`threshold + 1 = 204801` bytes (68267 three-byte characters) comes back
with `truncated: true`, but its `content` is the **entire** file — 204801
bytes, exceeding the threshold — because the `slice` truncates by UTF-16
code units (68267 ≤ 204800), not by bytes. -/
theorem read_file_byte_bound_cex :
    ToolExecutor.readFile "/work" autoApproveGuard bigFileEnv (some "big.txt") =
      pure (.readRes bigContent true 204801 (some 204801) (some readFileNote)) ∧
    utf8Bytes bigContent.toList = 204801 ∧
    readThreshold < utf8Bytes bigContent.toList := by
  have hlist : bigContent.toList = List.replicate 68267 '✓' := rfl
  have hbytes : utf8Bytes bigContent.toList = 204801 := by
    rw [hlist, utf8Bytes_replicate, show '✓'.utf8Size = 3 from rfl]
  have h16 : utf16Len bigContent.toList = 68267 := by
    rw [hlist, utf16Len_replicate, show utf16Units '✓' = 1 from rfl]
  have hslice : jsSliceUnits bigContent.toList readThreshold = bigContent.toList := by
    apply jsSliceUnits_of_le
    rw [h16]
    norm_num [readThreshold]
  refine ⟨?_, hbytes, by rw [hbytes]; norm_num [readThreshold]⟩
  have := readFile_large_eq "/work" autoApproveGuard bigFileEnv "big.txt"
    "/work/big.txt" bigContent 204801 (by decide) rfl rfl (by decide) rfl rfl
  rw [this, hslice, hbytes]
  rfl

/-! ## Scanner accumulator and trim lemmas -/

/-- The scanner loop only appends to its accumulators, and pushes a call
exactly when it records a span. -/
theorem scanLoop_acc (text : List Char) :
    ∀ (fuel i : Nat) (calls : List RepairCall) (spans : List (Nat × Nat)),
      ∃ (cs : List RepairCall) (sp : List (Nat × Nat)),
        scanLoop text fuel i calls spans = (calls ++ cs, spans ++ sp) ∧
        (cs = [] ↔ sp = []) := by
  intro fuel
  induction fuel with
  | zero =>
    intro i calls spans
    exact ⟨[], [], by simp [scanLoop], by simp⟩
  | succ fuel ih =>
    intro i calls spans
    match hstep : scanStep text i with
    | .stop =>
      refine ⟨[], [], ?_, by simp⟩
      simp only [scanLoop, hstep]
      simp
    | .skip i' =>
      obtain ⟨cs, sp, heq, hiff⟩ := ih i' calls spans
      refine ⟨cs, sp, ?_, hiff⟩
      simp only [scanLoop, hstep]
      exact heq
    | .found name args span i' =>
      obtain ⟨cs, sp, heq, hiff⟩ := ih i'
        (calls ++ [⟨"groq-repair-" ++ toString calls.length, ⟨name⟩, args⟩])
        (spans ++ [span])
      refine ⟨⟨"groq-repair-" ++ toString calls.length, ⟨name⟩, args⟩ :: cs,
        span :: sp, ?_, by simp⟩
      simp only [scanLoop, hstep]
      rw [heq]
      simp

/-- The first character surviving `dropWhile p` does not satisfy `p`. -/
theorem head_of_dropWhile_not (p : Char → Bool) (l : List Char) :
    ∀ c rest, List.dropWhile p l = c :: rest → p c = false := by
  induction l with
  | nil => intro c rest h; simp [List.dropWhile] at h
  | cons x xs ih =>
    intro c rest h
    rw [List.dropWhile_cons] at h
    by_cases hx : p x = true
    · rw [if_pos hx] at h
      exact ih c rest h
    · rw [if_neg hx] at h
      cases h
      exact Bool.eq_false_iff.mpr hx

/-- `trim` is idempotent. -/
theorem jsTrim_idem (l : List Char) : jsTrim (jsTrim l) = jsTrim l := by
  show List.rdropWhile isJsWs (List.dropWhile isJsWs
      (List.rdropWhile isJsWs (List.dropWhile isJsWs l))) =
    List.rdropWhile isJsWs (List.dropWhile isJsWs l)
  have key : ∀ R, List.rdropWhile isJsWs (List.dropWhile isJsWs l) = R →
      List.dropWhile isJsWs R = R := by
    intro R hR
    match R with
    | [] => rfl
    | c :: rest =>
      obtain ⟨t, ht⟩ := List.rdropWhile_prefix isJsWs (List.dropWhile isJsWs l)
      rw [hR] at ht
      have hc : isJsWs c = false :=
        head_of_dropWhile_not isJsWs l c (rest ++ t)
          (by rw [← ht, List.cons_append])
      rw [List.dropWhile_cons, if_neg (by rw [hc]; exact Bool.false_ne_true)]
  rw [key _ rfl, List.rdropWhile_idempotent]

/-! ## C10: behaviour of the stripped text with and without matches -/

/-- C10: when the scanner records no span, the returned calls are empty and
the stripped text is character-for-character the input (no trimming); in
particular any text with no occurrence of the marker `<function=` comes
back as `([], text)`; whereas whenever at least one span matched, the
returned text is trimmed (it is a fixed point of `trim`). -/
theorem repair_no_match_identity :
    (∀ text : List Char, (repairMalformedToolCalls text).1 = [] →
      (repairMalformedToolCalls text).2 = text) ∧
    (∀ text : List Char, containsSub text markerToken = false →
      repairMalformedToolCalls text = ([], text)) ∧
    (∀ text : List Char, (repairMalformedToolCalls text).1 ≠ [] →
      jsTrim (repairMalformedToolCalls text).2 =
        (repairMalformedToolCalls text).2) := by
  have hacc : ∀ text : List Char,
      (scanLoop text (text.length + 1) 0 [] []).1 = [] ↔
      (scanLoop text (text.length + 1) 0 [] []).2 = [] := by
    intro text
    obtain ⟨cs, sp, heq, hiff⟩ := scanLoop_acc text (text.length + 1) 0 [] []
    rw [heq]
    simpa using hiff
  refine ⟨?_, ?_, ?_⟩
  · intro text hcalls
    by_cases hsp : (scanLoop text (text.length + 1) 0 [] []).2 = []
    · show (repairMalformedToolCalls text).2 = text
      unfold repairMalformedToolCalls
      rw [if_pos hsp]
    · refine absurd hcalls ?_
      unfold repairMalformedToolCalls
      rw [if_neg hsp]
      exact fun hc => hsp ((hacc text).mp hc)
  · intro text hnone
    have hfind : findFrom markerToken text 0 = none := by
      cases hf : findFrom markerToken text 0 with
      | none => rfl
      | some v =>
        unfold containsSub at hnone
        rw [hf] at hnone
        simp at hnone
    have hstep : scanStep text 0 = .stop := by
      unfold scanStep indexOfFrom
      rw [List.drop_zero, hfind]
    unfold repairMalformedToolCalls
    simp only [scanLoop, hstep]
    simp
  · intro text hcalls
    by_cases hsp : (scanLoop text (text.length + 1) 0 [] []).2 = []
    · refine absurd ?_ hcalls
      unfold repairMalformedToolCalls
      rw [if_pos hsp]
      exact (hacc text).mpr hsp
    · show jsTrim (repairMalformedToolCalls text).2 =
        (repairMalformedToolCalls text).2
      unfold repairMalformedToolCalls
      rw [if_neg hsp]
      exact jsTrim_idem _

/-- Witness for `repair_no_match_identity`: a marker-free text is returned
unchanged with no calls. -/
theorem repair_no_match_identity_witness :
    repairMalformedToolCalls "  hello world  ".toList =
      ([], "  hello world  ".toList) :=
  repair_no_match_identity.2.1 "  hello world  ".toList rfl

/-! ## Append/trim lemmas for the heuristic's rewritten text -/

/-- `dropWhile` over an append either discards the whole first part or
stops inside it. -/
theorem dropWhile_append_cases (p : Char → Bool) (x y : List Char) :
    List.dropWhile p (x ++ y) = List.dropWhile p y ∨
    List.dropWhile p (x ++ y) = List.dropWhile p x ++ y := by
  induction x with
  | nil => left; rfl
  | cons c xs ih =>
    rw [List.cons_append, List.dropWhile_cons]
    by_cases hc : p c = true
    · rw [if_pos hc]
      rcases ih with h | h
      · left; exact h
      · right; rw [h, List.dropWhile_cons, if_pos hc]
    · rw [if_neg hc]
      right
      rw [List.dropWhile_cons, if_neg hc, List.cons_append]

/-- A block with no surrounding whitespace survives a `trim` of anything
appended in front of it. -/
theorem suffix_jsTrim_append (x conf : List Char)
    (hhead : List.dropWhile isJsWs conf = conf)
    (hlast : List.rdropWhile isJsWs conf = conf)
    (hne : conf ≠ []) :
    conf <:+ jsTrim (x ++ conf) := by
  show conf <:+ List.rdropWhile isJsWs (List.dropWhile isJsWs (x ++ conf))
  rcases dropWhile_append_cases isJsWs x conf with h | h
  · rw [h, hhead, hlast]
  · rw [h]
    have hr : List.rdropWhile isJsWs (List.dropWhile isJsWs x ++ conf) =
        List.dropWhile isJsWs x ++ conf := by
      refine List.rdropWhile_eq_self_iff.mpr ?_
      intro hl
      have hgl := List.getLast_append' (List.dropWhile isJsWs x) conf hne
      rw [show (List.dropWhile isJsWs x ++ conf).getLast hl =
        conf.getLast hne from hgl]
      exact List.rdropWhile_eq_self_iff.mp hlast hne
    rw [hr]
    exact ⟨List.dropWhile isJsWs x, rfl⟩

/-! ## C4: the end-to-end heuristic scenario -/

/-- C4 (amended): when the most recent user turn is
`create a file named notes.txt with hello` and the model response contains
a fenced code block with nonempty body, heuristic inference synthesizes
exactly one `edit_file` call with path `notes.txt` (the "named" phrase of
the user turn has priority) and content equal to the code-block body
verbatim; the rewritten response text is the trimmed text before the
block, the fixed confirmation sentence, and the trimmed text after the
block, the nonempty pieces joined by blank lines — so it ends in the
confirmation sentence exactly when no text follows the code block. -/
theorem heuristic_infer_notes_file (text : List Char) (b : CodeBlock)
    (hb : extractFirstCodeBlock text = some b)
    (hne : jsTrim b.content ≠ []) :
    inferEditFileFromResponse text c4user =
      some ⟨⟨"groq-heuristic-0", "edit_file",
        .obj [("path", .str "notes.txt"), ("content", .str ⟨b.content⟩)]⟩,
        heuristicRewrite text b⟩ ∧
    (jsTrim (text.drop b.stop) = [] →
      confirmationSentence <:+ heuristicRewrite text b) := by
  constructor
  · unfold inferEditFileFromResponse
    rw [if_neg (fun hc => hc (by decide))]
    simp only [hb]
    rw [if_neg hne]
    rfl
  · intro hafter
    unfold heuristicRewrite
    rw [hafter]
    by_cases hbefore : jsTrim (text.take b.start) = []
    · rw [hbefore]
      decide
    · have hbefore' : (jsTrim (text.take b.start)).isEmpty = false := by
        cases hx : jsTrim (text.take b.start) with
        | nil => exact absurd hx hbefore
        | cons c rest => rfl
      have hfil : [jsTrim (text.take b.start), confirmationSentence,
          ([] : List Char)].filter (fun l => !l.isEmpty) =
          [jsTrim (text.take b.start), confirmationSentence] := by
        simp [List.filter, hbefore']
        rfl
      rw [hfil]
      have hint : List.intercalate "\n\n".toList
          [jsTrim (text.take b.start), confirmationSentence] =
          (jsTrim (text.take b.start) ++ "\n\n".toList) ++
            confirmationSentence := by
        simp [List.intercalate, List.intersperse]
      rw [hint]
      exact suffix_jsTrim_append _ _ (by decide) (by decide) (by decide)

/-- Witness for `heuristic_infer_notes_file`: the pure scenario, with the
code block at the end of the response. -/
theorem heuristic_infer_notes_file_witness :
    inferEditFileFromResponse "```\nhello```".toList c4user =
      some ⟨⟨"groq-heuristic-0", "edit_file",
        .obj [("path", .str "notes.txt"), ("content", .str "hello")]⟩,
        heuristicRewrite "```\nhello```".toList ⟨"hello".toList, [], 0, 12⟩⟩ ∧
    confirmationSentence <:+
      heuristicRewrite "```\nhello```".toList ⟨"hello".toList, [], 0, 12⟩ :=
  ⟨(heuristic_infer_notes_file "```\nhello```".toList
      ⟨"hello".toList, [], 0, 12⟩ rfl (by decide)).1,
   (heuristic_infer_notes_file "```\nhello```".toList
      ⟨"hello".toList, [], 0, 12⟩ rfl (by decide)).2 rfl⟩

/-- C4 counterexample to the claim as stated: with trailing text after the
code block, the conditions of the claim hold (block body `hello`, no
marker span), the synthesized call is as claimed, but the rewritten text
is `I've created the file.\n\nbye` — it does **not** end in the fixed
confirmation sentence. -/
theorem heuristic_confirmation_position_cex :
    inferEditFileFromResponse c4cexText c4user =
      some ⟨⟨"groq-heuristic-0", "edit_file",
        .obj [("path", .str "notes.txt"), ("content", .str "hello")]⟩,
        "I've created the file.\n\nbye".toList⟩ ∧
    (extractFirstCodeBlock c4cexText).isSome = true ∧
    containsSub c4cexText markerToken = false ∧
    ¬ confirmationSentence <:+ "I've created the file.\n\nbye".toList :=
  ⟨rfl, rfl, rfl, by decide⟩

/-! ## Pattern-occurrence lemmas for the scanner -/

theorem leadsWith_iff (pat : List Char) : ∀ cs, leadsWith pat cs = true ↔
    cs.take pat.length = pat ∧ pat.length ≤ cs.length := by
  induction pat with
  | nil => intro cs; simp [leadsWith]
  | cons p ps ih =>
    intro cs
    cases cs with
    | nil => simp [leadsWith]
    | cons c rest =>
      simp only [leadsWith, List.length_cons, List.take_succ_cons,
        List.cons.injEq, Bool.and_eq_true, decide_eq_true_eq,
        Nat.add_le_add_iff_right, ih rest]
      constructor
      · rintro ⟨h1, h2, h3⟩
        exact ⟨⟨h1.symm, h2⟩, h3⟩
      · rintro ⟨⟨h1, h2⟩, h3⟩
        exact ⟨h1.symm, h2, h3⟩

theorem leadsWith_append (pat t : List Char) : leadsWith pat (pat ++ t) = true := by
  rw [leadsWith_iff]
  exact ⟨List.take_left pat t, by simp⟩

theorem findFrom_isSome_of (pat : List Char) (hpat : pat ≠ []) :
    ∀ (q : Nat) (cs : List Char) (pos : Nat),
      leadsWith pat (cs.drop q) = true → (findFrom pat cs pos).isSome = true := by
  intro q
  induction q with
  | zero =>
    intro cs pos h
    rw [List.drop_zero] at h
    cases cs with
    | nil =>
      match pat, hpat with
      | p :: ps, _ => simp [leadsWith] at h
    | cons c rest => simp [findFrom, h]
  | succ q ih =>
    intro cs pos h
    cases cs with
    | nil =>
      rw [List.drop_nil] at h
      match pat, hpat with
      | p :: ps, _ => simp [leadsWith] at h
    | cons c rest =>
      by_cases hc : leadsWith pat (c :: rest) = true
      · simp [findFrom, hc]
      · simp only [findFrom, if_neg hc]
        exact ih rest (pos + 1) h

theorem leadsWith_drop_false (pat cs : List Char) (hpat : pat ≠ [])
    (h : containsSub cs pat = false) :
    ∀ q, leadsWith pat (cs.drop q) = false := by
  intro q
  by_contra hcon
  rw [Bool.not_eq_false] at hcon
  unfold containsSub at h
  rw [findFrom_isSome_of pat hpat q cs 0 hcon] at h
  simp at h

theorem findFrom_none_of (pat : List Char) (hpat : pat ≠ []) :
    ∀ (cs : List Char) (pos : Nat),
      (∀ q, leadsWith pat (cs.drop q) = false) →
      findFrom pat cs pos = none := by
  intro cs
  induction cs with
  | nil =>
    intro pos _
    match pat, hpat with
    | p :: ps, _ => rfl
  | cons c rest ih =>
    intro pos h
    have h0 := h 0
    rw [List.drop_zero] at h0
    simp only [findFrom, h0, Bool.false_eq_true, if_false]
    exact ih (pos + 1) (fun q => h (q + 1))

theorem findFrom_spec (pat : List Char) (hpat : pat ≠ []) :
    ∀ (q : Nat) (cs : List Char) (pos : Nat),
      (∀ r, r < q → leadsWith pat (cs.drop r) = false) →
      leadsWith pat (cs.drop q) = true →
      findFrom pat cs pos = some (pos + q) := by
  intro q
  induction q with
  | zero =>
    intro cs pos _ hq
    rw [List.drop_zero] at hq
    cases cs with
    | nil =>
      match pat, hpat with
      | p :: ps, _ => simp [leadsWith] at hq
    | cons c rest => simp [findFrom, hq]
  | succ q ih =>
    intro cs pos hlt hq
    cases cs with
    | nil =>
      rw [List.drop_nil] at hq
      match pat, hpat with
      | p :: ps, _ => simp [leadsWith] at hq
    | cons c rest =>
      have h0 := hlt 0 (Nat.succ_pos q)
      rw [List.drop_zero] at h0
      simp only [findFrom, h0, Bool.false_eq_true, if_false]
      rw [show pos + (q + 1) = (pos + 1) + q from by omega]
      exact ih rest (pos + 1) (fun r hr => hlt (r + 1) (by omega)) hq

/-! ## Marker-token facts -/

theorem markerToken_ne_nil : markerToken ≠ [] := by decide

theorem markerToken_len : markerToken.length = 10 := rfl

/-- `<function=` has no nontrivial border: no proper nonempty suffix of it
is also a prefix. -/
theorem marker_border_free :
    ∀ m, m < 10 → 1 ≤ m → markerToken.drop m ≠ markerToken.take (10 - m) := by
  decide

/-! ## Positional helpers -/

theorem get?_concat_len (x y : List Char) : (x ++ y).get? x.length = y.head? := by
  induction x with
  | nil => cases y <;> rfl
  | cons c xs ih => exact ih

theorem runLen_cons_neg (p : Char → Bool) (c : Char) (cs : List Char)
    (h : p c = false) : runLen p (c :: cs) = 0 := by
  simp [runLen, h]

theorem runLen_append_stop (p : Char → Bool) (y : Char) (ys : List Char)
    (hy : p y = false) :
    ∀ xs, (∀ c ∈ xs, p c = true) → runLen p (xs ++ y :: ys) = xs.length := by
  intro xs
  induction xs with
  | nil => intro _; exact runLen_cons_neg p y ys hy
  | cons c rest ih =>
    intro hall
    have hc := hall c (List.mem_cons_self c rest)
    simp only [List.cons_append, runLen, if_pos hc, List.length_cons]
    show runLen p (rest ++ y :: ys) + 1 = rest.length + 1
    rw [ih (fun d hd => hall d (List.mem_cons_of_mem c hd))]

theorem sliceList_mid (x y z : List Char) :
    sliceList (x ++ y ++ z) x.length (x.length + y.length) = y := by
  unfold sliceList
  rw [List.append_assoc, List.take_append_eq_append_take,
    List.take_of_length_le (by omega : x.length ≤ x.length + y.length),
    show x.length + y.length - x.length = y.length from by omega,
    List.take_append_eq_append_take,
    List.take_of_length_le (Nat.le_refl y.length),
    show y.length - y.length = 0 from by omega, List.take_zero,
    List.append_nil, List.drop_left]

/-! ## Brace-balance lemmas -/

theorem braceBal_append (u v : List Char) :
    braceBal (u ++ v) = braceBal u + braceBal v := by
  simp only [braceBal, List.count_append]
  push_cast
  ring

theorem braceBal_open : braceBal ['{'] = 1 := by decide

theorem braceBal_close : braceBal ['}'] = -1 := by decide

theorem braceBal_other (c : Char) (h1 : ¬ c = '{') (h2 : ¬ c = '}') :
    braceBal [c] = 0 := by
  simp only [braceBal, List.count_singleton]
  rw [if_neg (by simpa using h1), if_neg (by simpa using h2)]
  rfl

theorem braceGo_inner (json rest : List Char) (j₀ : Nat)
    (hbal : braceBal json = 0)
    (hpos : ∀ k, k < json.length → 0 < k → 0 < braceBal (json.take k)) :
    ∀ (d m : Nat), m + d = json.length - 1 → 1 ≤ m →
      braceGo (json.drop m ++ rest) (j₀ + m) (braceBal (json.take m)) =
        some (j₀ + (json.length - 1)) := by
  intro d
  induction d with
  | zero =>
    intro m hm hm1
    have hmlt : m < json.length := by omega
    have hposm := hpos m hmlt hm1
    have htake : json.take (m + 1) = json.take m ++ [json.get ⟨m, hmlt⟩] := by
      rw [List.take_succ]
      congr 1
      rw [List.getElem?_eq_getElem hmlt]
      rfl
    have htakeall : json.take (m + 1) = json :=
      List.take_of_length_le (by omega)
    have hballast : braceBal (json.take m) + braceBal [json.get ⟨m, hmlt⟩] = 0 := by
      rw [← braceBal_append, ← htake, htakeall, hbal]
    have hlast : json.get ⟨m, hmlt⟩ = '}' := by
      by_contra hne
      have halt : braceBal [json.get ⟨m, hmlt⟩] = 1 ∨
          braceBal [json.get ⟨m, hmlt⟩] = 0 := by
        by_cases hob : json.get ⟨m, hmlt⟩ = '{'
        · left
          rw [hob]
          exact braceBal_open
        · right
          exact braceBal_other _ hob hne
      omega
    have hdrop : json.drop m = ['}'] := by
      rw [List.drop_eq_getElem_cons hmlt,
        List.drop_eq_nil_of_le (by omega : json.length ≤ m + 1)]
      rw [show json[m] = json.get ⟨m, hmlt⟩ from rfl, hlast]
    have hdepth : braceBal (json.take m) = 1 := by
      rw [hlast, braceBal_close] at hballast
      omega
    rw [hdrop, hdepth]
    simp [braceGo, show (1 : Int) - 1 = 0 from by decide]
    omega
  | succ d ih =>
    intro m hm hm1
    have hmlt : m < json.length := by omega
    have htake : json.take (m + 1) = json.take m ++ [json.get ⟨m, hmlt⟩] := by
      rw [List.take_succ]
      congr 1
      rw [List.getElem?_eq_getElem hmlt]
      rfl
    have hdrop : json.drop m = json.get ⟨m, hmlt⟩ :: json.drop (m + 1) := by
      rw [List.drop_eq_getElem_cons hmlt]
      rfl
    have hstep : braceBal (json.take (m + 1)) =
        braceBal (json.take m) + braceBal [json.get ⟨m, hmlt⟩] := by
      rw [htake, braceBal_append]
    have hrec := ih (m + 1) (by omega) (by omega)
    rw [show j₀ + (m + 1) = j₀ + m + 1 from by omega] at hrec
    rw [hdrop, List.cons_append]
    by_cases hob : json.get ⟨m, hmlt⟩ = '{'
    · have hb1 : braceBal (json.take (m + 1)) = braceBal (json.take m) + 1 := by
        rw [hstep, hob, braceBal_open]
      simp only [braceGo, if_pos hob]
      rw [hb1] at hrec
      exact hrec
    · by_cases hcb : json.get ⟨m, hmlt⟩ = '}'
      · have hposnext := hpos (m + 1) (by omega) (by omega)
        have hb1 : braceBal (json.take (m + 1)) =
            braceBal (json.take m) - 1 := by
          rw [hstep, hcb, braceBal_close]
          omega
        simp only [braceGo, if_neg hob, if_pos hcb]
        rw [if_neg (by omega : ¬ braceBal (json.take m) - 1 = 0)]
        rw [hb1] at hrec
        exact hrec
      · have hb1 : braceBal (json.take (m + 1)) = braceBal (json.take m) := by
          rw [hstep, braceBal_other _ hob hcb]
          omega
        simp only [braceGo, if_neg hob, if_neg hcb]
        rw [hb1] at hrec
        exact hrec

theorem braceGo_entry (json rest : List Char) (j₀ : Nat)
    (hhead : json.head? = some '{') (hbal : braceBal json = 0)
    (hpos : ∀ k, k < json.length → 0 < k → 0 < braceBal (json.take k)) :
    braceGo (json ++ rest) j₀ 0 = some (j₀ + (json.length - 1)) := by
  cases json with
  | nil => simp at hhead
  | cons c jrest =>
    have hc : c = '{' := by simpa using hhead
    subst hc
    have hlen2 : 2 ≤ ('{' :: jrest).length := by
      cases jrest with
      | nil => simp [braceBal] at hbal
      | cons d ds => simp
    have htake1 : braceBal (('{' :: jrest).take 1) = 1 := braceBal_open
    have hmain := braceGo_inner ('{' :: jrest) rest j₀ hbal hpos
      (('{' :: jrest).length - 1 - 1) 1 (by omega) (Nat.le_refl 1)
    rw [show ('{' :: jrest).drop 1 = jrest from rfl, htake1] at hmain
    simp only [List.cons_append, braceGo,
      if_pos (rfl : ('{' : Char) = '{')]
    rw [show (0 : Int) + 1 = 1 from by decide]
    exact hmain

/-- No marker occurrence starts strictly before the span when `a` is
marker-free: an occurrence inside `a` contradicts the hypothesis, and a
straddling occurrence would give `<function=` a nontrivial border. -/
theorem no_marker_before (a tail : List Char)
    (ha : ∀ q, leadsWith markerToken (a.drop q) = false) :
    ∀ r, r < a.length →
      leadsWith markerToken ((a ++ (markerToken ++ tail)).drop r) = false := by
  intro r hr
  by_contra hcon
  rw [Bool.not_eq_false] at hcon
  rw [List.drop_append_eq_append_drop,
    show r - a.length = 0 from by omega, List.drop_zero] at hcon
  rcases (leadsWith_iff _ _).mp hcon with ⟨htake, hlen⟩
  rw [markerToken_len] at htake hlen
  have hm : (a.drop r).length = a.length - r := by
    rw [List.length_drop]
  by_cases hM : 10 ≤ a.length - r
  · have h1 : ((a.drop r) ++ (markerToken ++ tail)).take 10 =
        (a.drop r).take 10 := by
      rw [List.take_append_eq_append_take,
        show 10 - (a.drop r).length = 0 from by omega, List.take_zero,
        List.append_nil]
    rw [h1] at htake
    have hocc : leadsWith markerToken (a.drop r) = true := by
      rw [leadsWith_iff, markerToken_len]
      exact ⟨htake, by omega⟩
    rw [ha r] at hocc
    exact Bool.false_ne_true hocc
  · have hm1 : 1 ≤ a.length - r := by omega
    have h1 : ((a.drop r) ++ (markerToken ++ tail)).take 10 =
        (a.drop r) ++ markerToken.take (10 - (a.length - r)) := by
      rw [List.take_append_eq_append_take,
        List.take_of_length_le (by omega : (a.drop r).length ≤ 10), hm,
        List.take_append_eq_append_take,
        show 10 - (a.length - r) - markerToken.length = 0 from by
          rw [markerToken_len]; omega,
        List.take_zero, List.append_nil]
    rw [h1] at htake
    have hdropped := congrArg (List.drop (a.length - r)) htake
    rw [List.drop_append_eq_append_drop, hm,
      show a.length - r - (a.length - r) = 0 from by omega, List.drop_zero,
      List.drop_eq_nil_of_le (by omega : (a.drop r).length ≤ a.length - r),
      List.nil_append] at hdropped
    exact marker_border_free (a.length - r) (by omega) hm1 hdropped.symm

/-- One scanner iteration from position 0 on `a ++ <function=NAME\x7bJSON\x7d> ++ b`
(plain form) recovers the call and consumes exactly the span. -/
theorem scanStep_wf_plain (a b name json : List Char)
    (hname : name ≠ [])
    (hhead : ∀ c, name.head? = some c → isIdentStart c = true)
    (hcont : ∀ c ∈ name, isIdentCont c = true)
    (hjhead : json.head? = some '{')
    (hjbal : braceBal json = 0)
    (hjpos : ∀ k, k < json.length → 0 < k → 0 < braceBal (json.take k))
    (ha : ∀ q, leadsWith markerToken (a.drop q) = false) :
    scanStep (a ++ wfSpan false name json ++ b) 0 =
      .found name (parseArgs json)
        (a.length, a.length + (wfSpan false name json).length)
        (a.length + (wfSpan false name json).length) := by
  obtain ⟨n₀, ntail, hn⟩ : ∃ c t, name = c :: t := by
    cases name with
    | nil => exact absurd rfl hname
    | cons c t => exact ⟨c, t, rfl⟩
  obtain ⟨jtail, hj⟩ : ∃ t, json = '{' :: t := by
    cases json with
    | nil => simp at hjhead
    | cons c t =>
      have hc : c = '{' := by simpa using hjhead
      exact ⟨t, by rw [hc]⟩
  have htext2 : a ++ wfSpan false name json ++ b =
      (a ++ markerToken) ++ (name ++ (json ++ ('>' :: b))) := by
    simp [wfSpan, List.append_assoc]
  have htext3 : a ++ wfSpan false name json ++ b =
      ((a ++ markerToken) ++ [n₀]) ++ (ntail ++ (json ++ ('>' :: b))) := by
    rw [htext2, hn]
    simp [List.append_assoc]
  have htext4 : a ++ wfSpan false name json ++ b =
      ((a ++ markerToken) ++ name) ++ (json ++ ('>' :: b)) := by
    rw [htext2]
    simp [List.append_assoc]
  have htext5 : a ++ wfSpan false name json ++ b =
      (((a ++ markerToken) ++ name) ++ json) ++ ('>' :: b) := by
    rw [htext4]
    simp [List.append_assoc]
  have hlen1 : a.length + markerToken.length = (a ++ markerToken).length := by
    simp only [List.length_append]
  have hlen2 : a.length + markerToken.length + 1 =
      ((a ++ markerToken) ++ [n₀]).length := by
    simp only [List.length_append, List.length_singleton]
  have hlen3 : a.length + markerToken.length + 1 + ntail.length =
      ((a ++ markerToken) ++ name).length := by
    simp only [hn, List.length_append, List.length_cons]
    omega
  have hlen3b : a.length + markerToken.length + 1 + ntail.length =
      (a ++ markerToken).length + name.length := by
    simp only [hn, List.length_append, List.length_cons]
    omega
  have hidx : indexOfFrom (a ++ wfSpan false name json ++ b) markerToken 0 =
      some a.length := by
    unfold indexOfFrom
    rw [List.drop_zero, htext2, List.append_assoc]
    have hfs := findFrom_spec markerToken markerToken_ne_nil a.length
      (a ++ (markerToken ++ (name ++ (json ++ ('>' :: b))))) 0
      (no_marker_before a (name ++ (json ++ ('>' :: b))) ha)
      (by rw [List.drop_left]; exact leadsWith_append _ _)
    rw [Nat.zero_add] at hfs
    exact hfs
  have hget1 : (a ++ wfSpan false name json ++ b).get?
      (a.length + markerToken.length) = some n₀ := by
    rw [htext2, hlen1, get?_concat_len, hn]
    rfl
  have hstart : isIdentStart n₀ = true := hhead n₀ (by rw [hn]; rfl)
  have hdropn : (a ++ wfSpan false name json ++ b).drop
      (a.length + markerToken.length + 1) = ntail ++ (json ++ ('>' :: b)) := by
    rw [htext3, hlen2, List.drop_left]
  have hrun : runLen isIdentCont (ntail ++ (json ++ ('>' :: b))) =
      ntail.length := by
    rw [hj, List.cons_append]
    exact runLen_append_stop isIdentCont '{' (jtail ++ ('>' :: b))
      (by decide) ntail
      (fun c hc => hcont c (by rw [hn]; exact List.mem_cons_of_mem n₀ hc))
  have hslice : sliceList (a ++ wfSpan false name json ++ b)
      (a.length + markerToken.length)
      (a.length + markerToken.length + 1 + ntail.length) = name := by
    rw [htext4, hlen3b, hlen1]
    exact sliceList_mid (a ++ markerToken) name (json ++ ('>' :: b))
  have hdrop2 : (a ++ wfSpan false name json ++ b).drop
      (a.length + markerToken.length + 1 + ntail.length) =
      json ++ ('>' :: b) := by
    rw [htext4, hlen3, List.drop_left]
  have hskip1 : skipWs (a ++ wfSpan false name json ++ b)
      (a.length + markerToken.length + 1 + ntail.length) =
      a.length + markerToken.length + 1 + ntail.length := by
    unfold skipWs
    rw [hdrop2, hj, List.cons_append,
      runLen_cons_neg _ _ _ (by decide : isJsWs '{' = false)]
    omega
  have hget2 : (a ++ wfSpan false name json ++ b).get?
      (a.length + markerToken.length + 1 + ntail.length) = some '{' := by
    rw [htext4, hlen3, get?_concat_len, hj]
    rfl
  have hbg := braceGo_entry json ('>' :: b)
    (a.length + markerToken.length + 1 + ntail.length) hjhead hjbal hjpos
  have hlen4 : a.length + markerToken.length + 1 + ntail.length + json.length =
      (((a ++ markerToken) ++ name) ++ json).length := by
    simp only [hn, List.length_append, List.length_cons]
    omega
  have hlen4b : a.length + markerToken.length + 1 + ntail.length + json.length =
      ((a ++ markerToken) ++ name).length + json.length := by
    simp only [hn, List.length_append, List.length_cons]
    omega
  have harith1 : a.length + markerToken.length + 1 + ntail.length +
      (json.length - 1) + 1 =
      a.length + markerToken.length + 1 + ntail.length + json.length := by
    rw [hj]
    simp only [List.length_cons]
    omega
  have hslice2 : sliceList (a ++ wfSpan false name json ++ b)
      (a.length + markerToken.length + 1 + ntail.length)
      (a.length + markerToken.length + 1 + ntail.length + json.length) =
      json := by
    rw [htext5, hlen4b, hlen3]
    exact sliceList_mid ((a ++ markerToken) ++ name) json ('>' :: b)
  have hdrop3 : (a ++ wfSpan false name json ++ b).drop
      (a.length + markerToken.length + 1 + ntail.length + json.length) =
      '>' :: b := by
    rw [htext5, hlen4, List.drop_left]
  have hskip2 : skipWs (a ++ wfSpan false name json ++ b)
      (a.length + markerToken.length + 1 + ntail.length + json.length) =
      a.length + markerToken.length + 1 + ntail.length + json.length := by
    unfold skipWs
    rw [hdrop3, runLen_cons_neg _ _ _ (by decide : isJsWs '>' = false)]
    omega
  have hget3 : (a ++ wfSpan false name json ++ b).get?
      (a.length + markerToken.length + 1 + ntail.length + json.length) =
      some '>' := by
    rw [htext5, hlen4, get?_concat_len]
    rfl
  have hE : a.length + markerToken.length + 1 + ntail.length + json.length + 1 =
      a.length + (wfSpan false name json).length := by
    have hsp : wfSpan false name json = markerToken ++ name ++ json ++ ['>'] := by
      simp [wfSpan]
    rw [hsp]
    simp only [hn, List.length_append, List.length_cons, markerToken_len,
      List.length_nil]
    omega
  simp only [scanStep, hidx, hget1]
  rw [if_neg (fun hc => hc hstart)]
  rw [hdropn, hrun, hslice, hskip1]
  simp only [hget2]
  rw [if_neg (by decide : ¬ ('{' : Char) = '(')]
  rw [if_pos hget2]
  rw [hdrop2]
  simp only [hbg]
  rw [harith1, hslice2, hskip2]
  simp only [hget3]
  rw [if_neg (by decide : ¬ (some '>' = some (')' : Char)))]
  rw [if_pos hget3]
  rw [hE]

/-- One scanner iteration from position 0 on
`a ++ <function=NAME(\x7bJSON\x7d)> ++ b` (parenthesised form) recovers the
call and consumes exactly the span. -/
theorem scanStep_wf_paren (a b name json : List Char)
    (hname : name ≠ [])
    (hhead : ∀ c, name.head? = some c → isIdentStart c = true)
    (hcont : ∀ c ∈ name, isIdentCont c = true)
    (hjhead : json.head? = some '{')
    (hjbal : braceBal json = 0)
    (hjpos : ∀ k, k < json.length → 0 < k → 0 < braceBal (json.take k))
    (ha : ∀ q, leadsWith markerToken (a.drop q) = false) :
    scanStep (a ++ wfSpan true name json ++ b) 0 =
      .found name (parseArgs json)
        (a.length, a.length + (wfSpan true name json).length)
        (a.length + (wfSpan true name json).length) := by
  obtain ⟨n₀, ntail, hn⟩ : ∃ c t, name = c :: t := by
    cases name with
    | nil => exact absurd rfl hname
    | cons c t => exact ⟨c, t, rfl⟩
  obtain ⟨jtail, hj⟩ : ∃ t, json = '{' :: t := by
    cases json with
    | nil => simp at hjhead
    | cons c t =>
      have hc : c = '{' := by simpa using hjhead
      exact ⟨t, by rw [hc]⟩
  have htext2 : a ++ wfSpan true name json ++ b =
      (a ++ markerToken) ++ (name ++ ('(' :: (json ++ (')' :: ('>' :: b))))) := by
    simp [wfSpan, List.append_assoc]
  have htext3 : a ++ wfSpan true name json ++ b =
      ((a ++ markerToken) ++ [n₀]) ++
        (ntail ++ ('(' :: (json ++ (')' :: ('>' :: b))))) := by
    rw [htext2, hn]
    simp [List.append_assoc]
  have htext4 : a ++ wfSpan true name json ++ b =
      ((a ++ markerToken) ++ name) ++ ('(' :: (json ++ (')' :: ('>' :: b)))) := by
    rw [htext2]
    simp [List.append_assoc]
  have htext5 : a ++ wfSpan true name json ++ b =
      (((a ++ markerToken) ++ name) ++ ['(']) ++ (json ++ (')' :: ('>' :: b))) := by
    rw [htext4]
    simp [List.append_assoc]
  have htext6 : a ++ wfSpan true name json ++ b =
      ((((a ++ markerToken) ++ name) ++ ['(']) ++ json) ++ (')' :: ('>' :: b)) := by
    rw [htext5]
    simp [List.append_assoc]
  have htext7 : a ++ wfSpan true name json ++ b =
      (((((a ++ markerToken) ++ name) ++ ['(']) ++ json) ++ [')']) ++
        ('>' :: b) := by
    rw [htext6]
    simp [List.append_assoc]
  have hlen1 : a.length + markerToken.length = (a ++ markerToken).length := by
    simp only [List.length_append]
  have hlen2 : a.length + markerToken.length + 1 =
      ((a ++ markerToken) ++ [n₀]).length := by
    simp only [List.length_append, List.length_singleton]
  have hlen3 : a.length + markerToken.length + 1 + ntail.length =
      ((a ++ markerToken) ++ name).length := by
    simp only [hn, List.length_append, List.length_cons]
    omega
  have hlen3b : a.length + markerToken.length + 1 + ntail.length =
      (a ++ markerToken).length + name.length := by
    simp only [hn, List.length_append, List.length_cons]
    omega
  have hlen5 : a.length + markerToken.length + 1 + ntail.length + 1 =
      (((a ++ markerToken) ++ name) ++ ['(']).length := by
    simp [hn]
    omega
  have hlen6 : a.length + markerToken.length + 1 + ntail.length + 1 +
      json.length =
      ((((a ++ markerToken) ++ name) ++ ['(']) ++ json).length := by
    simp [hn]
    omega
  have hlen6b : a.length + markerToken.length + 1 + ntail.length + 1 +
      json.length =
      (((a ++ markerToken) ++ name) ++ ['(']).length + json.length := by
    simp [hn]
    omega
  have hlen7 : a.length + markerToken.length + 1 + ntail.length + 1 +
      json.length + 1 =
      (((((a ++ markerToken) ++ name) ++ ['(']) ++ json) ++ [')']).length := by
    simp [hn]
    omega
  have hidx : indexOfFrom (a ++ wfSpan true name json ++ b) markerToken 0 =
      some a.length := by
    unfold indexOfFrom
    rw [List.drop_zero, htext2, List.append_assoc]
    have hfs := findFrom_spec markerToken markerToken_ne_nil a.length
      (a ++ (markerToken ++ (name ++ ('(' :: (json ++ (')' :: ('>' :: b))))))) 0
      (no_marker_before a (name ++ ('(' :: (json ++ (')' :: ('>' :: b))))) ha)
      (by rw [List.drop_left]; exact leadsWith_append _ _)
    rw [Nat.zero_add] at hfs
    exact hfs
  have hget1 : (a ++ wfSpan true name json ++ b).get?
      (a.length + markerToken.length) = some n₀ := by
    rw [htext2, hlen1, get?_concat_len, hn]
    rfl
  have hstart : isIdentStart n₀ = true := hhead n₀ (by rw [hn]; rfl)
  have hdropn : (a ++ wfSpan true name json ++ b).drop
      (a.length + markerToken.length + 1) =
      ntail ++ ('(' :: (json ++ (')' :: ('>' :: b)))) := by
    rw [htext3, hlen2, List.drop_left]
  have hrun : runLen isIdentCont (ntail ++ ('(' :: (json ++ (')' :: ('>' :: b))))) =
      ntail.length :=
    runLen_append_stop isIdentCont '(' (json ++ (')' :: ('>' :: b)))
      (by decide) ntail
      (fun c hc => hcont c (by rw [hn]; exact List.mem_cons_of_mem n₀ hc))
  have hslice : sliceList (a ++ wfSpan true name json ++ b)
      (a.length + markerToken.length)
      (a.length + markerToken.length + 1 + ntail.length) = name := by
    rw [htext4, hlen3b, hlen1]
    exact sliceList_mid (a ++ markerToken) name
      ('(' :: (json ++ (')' :: ('>' :: b))))
  have hdrop2 : (a ++ wfSpan true name json ++ b).drop
      (a.length + markerToken.length + 1 + ntail.length) =
      '(' :: (json ++ (')' :: ('>' :: b))) := by
    rw [htext4, hlen3, List.drop_left]
  have hskip1 : skipWs (a ++ wfSpan true name json ++ b)
      (a.length + markerToken.length + 1 + ntail.length) =
      a.length + markerToken.length + 1 + ntail.length := by
    unfold skipWs
    rw [hdrop2, runLen_cons_neg _ _ _ (by decide : isJsWs '(' = false)]
    omega
  have hget2 : (a ++ wfSpan true name json ++ b).get?
      (a.length + markerToken.length + 1 + ntail.length) = some '(' := by
    rw [htext4, hlen3, get?_concat_len]
    rfl
  have hdrop3 : (a ++ wfSpan true name json ++ b).drop
      (a.length + markerToken.length + 1 + ntail.length + 1) =
      json ++ (')' :: ('>' :: b)) := by
    rw [htext5, hlen5, List.drop_left]
  have hskip2 : skipWs (a ++ wfSpan true name json ++ b)
      (a.length + markerToken.length + 1 + ntail.length + 1) =
      a.length + markerToken.length + 1 + ntail.length + 1 := by
    unfold skipWs
    rw [hdrop3, hj, List.cons_append,
      runLen_cons_neg _ _ _ (by decide : isJsWs '{' = false)]
  have hget3 : (a ++ wfSpan true name json ++ b).get?
      (a.length + markerToken.length + 1 + ntail.length + 1) = some '{' := by
    rw [htext5, hlen5, get?_concat_len, hj]
    rfl
  have hbg := braceGo_entry json (')' :: ('>' :: b))
    (a.length + markerToken.length + 1 + ntail.length + 1) hjhead hjbal hjpos
  have harith1 : a.length + markerToken.length + 1 + ntail.length + 1 +
      (json.length - 1) + 1 =
      a.length + markerToken.length + 1 + ntail.length + 1 + json.length := by
    rw [hj]
    simp only [List.length_cons]
    omega
  have hslice2 : sliceList (a ++ wfSpan true name json ++ b)
      (a.length + markerToken.length + 1 + ntail.length + 1)
      (a.length + markerToken.length + 1 + ntail.length + 1 + json.length) =
      json := by
    rw [htext6, hlen6b, hlen5]
    exact sliceList_mid (((a ++ markerToken) ++ name) ++ ['(']) json
      (')' :: ('>' :: b))
  have hdrop4 : (a ++ wfSpan true name json ++ b).drop
      (a.length + markerToken.length + 1 + ntail.length + 1 + json.length) =
      ')' :: ('>' :: b) := by
    rw [htext6, hlen6, List.drop_left]
  have hskip3 : skipWs (a ++ wfSpan true name json ++ b)
      (a.length + markerToken.length + 1 + ntail.length + 1 + json.length) =
      a.length + markerToken.length + 1 + ntail.length + 1 + json.length := by
    unfold skipWs
    rw [hdrop4, runLen_cons_neg _ _ _ (by decide : isJsWs ')' = false)]
    omega
  have hget4 : (a ++ wfSpan true name json ++ b).get?
      (a.length + markerToken.length + 1 + ntail.length + 1 + json.length) =
      some ')' := by
    rw [htext6, hlen6, get?_concat_len]
    rfl
  have hdrop5 : (a ++ wfSpan true name json ++ b).drop
      (a.length + markerToken.length + 1 + ntail.length + 1 + json.length + 1) =
      '>' :: b := by
    rw [htext7, hlen7, List.drop_left]
  have hskip4 : skipWs (a ++ wfSpan true name json ++ b)
      (a.length + markerToken.length + 1 + ntail.length + 1 + json.length + 1) =
      a.length + markerToken.length + 1 + ntail.length + 1 + json.length + 1 := by
    unfold skipWs
    rw [hdrop5, runLen_cons_neg _ _ _ (by decide : isJsWs '>' = false)]
  have hget5 : (a ++ wfSpan true name json ++ b).get?
      (a.length + markerToken.length + 1 + ntail.length + 1 + json.length + 1) =
      some '>' := by
    rw [htext7, hlen7, get?_concat_len]
    rfl
  have hE : a.length + markerToken.length + 1 + ntail.length + 1 +
      json.length + 1 + 1 =
      a.length + (wfSpan true name json).length := by
    have hsp : wfSpan true name json =
        markerToken ++ name ++ ('(' :: (json ++ [')'])) ++ ['>'] := by
      simp [wfSpan]
    rw [hsp]
    simp only [hn, List.length_append, List.length_cons, List.length_nil]
    omega
  simp only [scanStep, hidx, hget1]
  rw [if_neg (fun hc => hc hstart)]
  rw [hdropn, hrun, hslice, hskip1]
  simp only [hget2]
  rw [hskip2]
  simp only [if_true]
  rw [if_pos hget3]
  rw [hdrop3]
  simp only [hbg]
  rw [harith1, hslice2, hskip3]
  rw [if_pos hget4]
  rw [hskip4]
  rw [if_pos hget5]
  rw [hE]

/-- Rebuilding the text around a single matched span replaces exactly that
span by one space. -/
theorem buildStripped_single (a mid b : List Char) :
    buildStripped (a ++ mid ++ b) [(a.length, a.length + mid.length)] =
      a ++ ' ' :: b := by
  simp only [buildStripped, List.foldl_cons, List.foldl_nil]
  have h1 : (if a.length > 0 then sliceList (a ++ mid ++ b) 0 a.length
      else []) = a := by
    by_cases hp : a.length > 0
    · rw [if_pos hp]
      unfold sliceList
      rw [List.drop_zero, List.append_assoc, List.take_left]
    · rw [if_neg hp]
      cases a with
      | nil => rfl
      | cons x xs => simp at hp
  have h2 : (if a.length + mid.length < (a ++ mid ++ b).length then
      List.drop (a.length + mid.length) (a ++ mid ++ b) else []) = b := by
    by_cases hq : a.length + mid.length < (a ++ mid ++ b).length
    · rw [if_pos hq,
        show a.length + mid.length = (a ++ mid).length from by
          simp only [List.length_append]]
      exact List.drop_left (a ++ mid) b
    · rw [if_neg hq]
      have hlen : (a ++ mid ++ b).length =
          a.length + mid.length + b.length := by
        simp
        omega
      rw [hlen] at hq
      cases b with
      | nil => rfl
      | cons x xs => simp at hq
  rw [h1, h2]
  simp

/-- The scanner finds nothing at or after the end of the span when the
remainder `b` is marker-free. -/
theorem scanStep_after (paren : Bool) (a b name json : List Char)
    (hb : containsSub b markerToken = false) :
    scanStep (a ++ wfSpan paren name json ++ b)
      (a.length + (wfSpan paren name json).length) = .stop := by
  have hdropb : (a ++ wfSpan paren name json ++ b).drop
      (a.length + (wfSpan paren name json).length) = b := by
    rw [show a.length + (wfSpan paren name json).length =
        (a ++ wfSpan paren name json).length from by
        simp only [List.length_append]]
    exact List.drop_left (a ++ wfSpan paren name json) b
  have hnone : indexOfFrom (a ++ wfSpan paren name json ++ b) markerToken
      (a.length + (wfSpan paren name json).length) = none := by
    unfold indexOfFrom
    rw [hdropb]
    exact findFrom_none_of markerToken markerToken_ne_nil b _
      (leadsWith_drop_false markerToken b markerToken_ne_nil hb)
  simp only [scanStep, hnone]

/-- C1: for a response text holding exactly one well-formed marker span
`<function=NAME\x7bJSON\x7d>` (or, with parentheses,
`<function=NAME(\x7bJSON\x7d)>`) — NAME a nonempty `[A-Za-z_][A-Za-z0-9_]*`
identifier, JSON a brace-balanced object literal whose proper prefixes keep
strictly positive brace depth (no closing brace inside a string ends it
early) and which `JSON.parse` reads as an object — and whose surrounding
text is free of the marker token, `repairMalformedToolCalls` returns exactly
one call `groq-repair-0` carrying NAME and the parsed arguments, and the
stripped text is the input with the span replaced by a single space, trimmed.
The marker-freeness of the surroundings is a necessary strengthening of the
claim: a stray `<function=` before the span aborts the scan (see the
counterexample), and one after it can add further calls. -/
theorem repair_single_span (paren : Bool) (a b name json : List Char)
    (fields : List (String × Json))
    (hname : name ≠ [])
    (hhead : ∀ c, name.head? = some c → isIdentStart c = true)
    (hcont : ∀ c ∈ name, isIdentCont c = true)
    (hjhead : json.head? = some '{')
    (hjbal : braceBal json = 0)
    (hjpos : ∀ k, k < json.length → 0 < k → 0 < braceBal (json.take k))
    (hparse : jsonParse json = some (Json.obj fields))
    (ha : containsSub a markerToken = false)
    (hb : containsSub b markerToken = false) :
    repairMalformedToolCalls (a ++ wfSpan paren name json ++ b) =
      ([⟨"groq-repair-0", ⟨name⟩, Json.obj fields⟩],
        jsTrim (a ++ ' ' :: b)) := by
  have ha' : ∀ q, leadsWith markerToken (a.drop q) = false :=
    leadsWith_drop_false markerToken a markerToken_ne_nil ha
  have hstep0 : scanStep (a ++ wfSpan paren name json ++ b) 0 =
      .found name (parseArgs json)
        (a.length, a.length + (wfSpan paren name json).length)
        (a.length + (wfSpan paren name json).length) := by
    cases paren with
    | false =>
      exact scanStep_wf_plain a b name json hname hhead hcont hjhead hjbal
        hjpos ha'
    | true =>
      exact scanStep_wf_paren a b name json hname hhead hcont hjhead hjbal
        hjpos ha'
  have hstep1 := scanStep_after paren a b name json hb
  obtain ⟨f, hf⟩ : ∃ f, (a ++ wfSpan paren name json ++ b).length = f + 1 := by
    refine ⟨(a ++ wfSpan paren name json ++ b).length - 1, ?_⟩
    have h1 : 0 < (wfSpan paren name json).length := by
      cases paren
      all_goals simp [wfSpan]
    have h2 : (a ++ wfSpan paren name json ++ b).length =
        a.length + (wfSpan paren name json).length + b.length := by
      simp
      omega
    omega
  simp only [repairMalformedToolCalls, scanLoop, hstep0]
  rw [hf]
  simp only [scanLoop, hstep1, List.nil_append, List.length_nil]
  rw [if_neg (List.cons_ne_nil _ _)]
  rw [buildStripped_single a (wfSpan paren name json) b]
  simp only [parseArgs, hparse]
  rfl

/-- Witness for C1: the parenthesised span
`<function=edit_file(\x7b"path":"a.txt"\x7d)>` surrounded by plain prose is
recovered as the single call `groq-repair-0`. -/
theorem repair_single_span_witness :
    repairMalformedToolCalls ("pre ".toList ++
        wfSpan true "edit_file".toList "\x7b\"path\":\"a.txt\"\x7d".toList ++
        " post".toList) =
      ([⟨"groq-repair-0", ⟨"edit_file".toList⟩,
          Json.obj [("path", Json.str "a.txt")]⟩],
        jsTrim ("pre ".toList ++ ' ' :: " post".toList)) :=
  repair_single_span true "pre ".toList " post".toList "edit_file".toList
    "\x7b\"path\":\"a.txt\"\x7d".toList [("path", Json.str "a.txt")]
    (by decide)
    (fun c hc => by
      rw [show ("edit_file".toList).head? = some 'e' from rfl] at hc
      rw [← Option.some.inj hc]
      decide)
    (by decide) rfl (by decide) (by decide) rfl (by decide) (by decide)

/-- Counterexample to C1 as stated: `c1cexText` holds exactly one
well-formed span `<function=foo\x7b"a":1\x7d>` (its JSON parses, is
brace-balanced and prefix-positive), yet because the preceding text holds a
stray `<function=` whose next character `1` is not an identifier start, the
scanner `break`s and the repair returns no calls and the text unchanged. -/
theorem repair_single_span_cex :
    c1cexText = "<function=1 ".toList ++
        wfSpan false "foo".toList "\x7b\"a\":1\x7d".toList ++
        ([] : List Char) ∧
    jsonParse "\x7b\"a\":1\x7d".toList =
      some (Json.obj [("a", Json.num "1")]) ∧
    braceBal "\x7b\"a\":1\x7d".toList = 0 ∧
    (∀ k, k < ("\x7b\"a\":1\x7d".toList).length → 0 < k →
      0 < braceBal (("\x7b\"a\":1\x7d".toList).take k)) ∧
    repairMalformedToolCalls c1cexText = ([], c1cexText) :=
  ⟨rfl, rfl, by decide, by decide, rfl⟩

end CodeAgent
